import Mathlib

/-!
Verification of the mini key-value storage engine in src/database_engine.cpp.

The development shallowly embeds the engine: byte strings become lists of
bytes (Nat), the paged data file becomes an association list from page id to
the record image stored on that page, the buffer pool becomes an association
list of cache entries with a logical clock, and the B+ tree index becomes a
mutual inductive tree.  Machine integers (uint64_t page ids, size_t clocks)
stay far below 2^64 in every behaviour studied here, so they are modelled by
Nat.  Fallible operations return their success flag exactly as the C++ code
returns bool.  Mutating engine operations additionally return the list of
file-system events they perform (journal writes/flushes and data-file
writes/flushes), in program order, for the write-ahead-ordering claims.
-/

namespace DbEngine

-- Config namespace of the source (database_engine.cpp, section 2).
namespace Config

def PAGE_SIZE : Nat := 4096

def CACHE_SIZE : Nat := 100

def BTREE_ORDER : Nat := 64

def MAX_KEY_SIZE : Nat := 256

def MAX_VALUE_SIZE : Nat := 1024

end Config

/-- A C++ std::string / char buffer content: a list of bytes. -/
abbrev ByteStr := List Nat

/-- Effect of strncpy(dst, s.c_str(), n) into a zeroed buffer, read back as a
NUL-terminated string: the bytes of s before its first NUL byte, at most n of
them.  Used with n = MAX_KEY_SIZE - 1 and n = MAX_VALUE_SIZE - 1. -/
def strncpyStr (n : Nat) (s : ByteStr) : ByteStr :=
  (s.takeWhile (fun b => b ≠ 0)).take n

/-- A key as the spec's data model understands it: a NUL-free byte string of
at most MAX_KEY_SIZE - 1 bytes (spec section 3: the stored length is the
position of the first NUL byte, key length at most 255). -/
def WFKey (k : ByteStr) : Prop := k.length ≤ 255 ∧ ∀ b ∈ k, b ≠ 0

/-- A value as the spec's data model understands it: a NUL-free byte string
of at most MAX_VALUE_SIZE - 1 bytes. -/
def WFValue (v : ByteStr) : Prop := v.length ≤ 1023 ∧ ∀ b ∈ v, b ≠ 0

instance : DecidablePred WFKey := fun k => by unfold WFKey; infer_instance

instance : DecidablePred WFValue := fun v => by unfold WFValue; infer_instance

/-- Record struct (source section 3): fixed-size key and value buffers, the
page id, and the soft-delete flag.  The 256- and 1024-byte NUL-padded buffers
are represented by their content before the first NUL byte. -/
structure Record where
  key : ByteStr
  value : ByteStr
  pageId : Nat
  isDeleted : Bool
  deriving DecidableEq, Repr

/-- Record default constructor: zeroed-out record. -/
def Record.empty : Record := ⟨[], [], 0, false⟩

/-- Record constructor from key, value and page id: strncpy truncates the
inputs to MAX_KEY_SIZE - 1 and MAX_VALUE_SIZE - 1 bytes. -/
def Record.make (k v : ByteStr) (pid : Nat) : Record :=
  ⟨strncpyStr 255 k, strncpyStr 1023 v, pid, false⟩

/-- Record::get_key — the stored key buffer read as a NUL-terminated string. -/
def Record.getKey (r : Record) : ByteStr := r.key

/-- Record::get_value — the stored value buffer read as a NUL-terminated string. -/
def Record.getValue (r : Record) : ByteStr := r.value

/-- Page struct (source section 4): page id, the 4096-byte data block and the
dirty flag.  The data block always holds one Record image followed by zero
padding, so it is represented by that Record (a freshly zeroed page reads
back as Record.empty). -/
structure Page where
  pageId : Nat
  rcd : Record
  isDirty : Bool
  deriving DecidableEq, Repr

/-- Page constructor: zeroed data, not dirty. -/
def Page.make (id : Nat) : Page := ⟨id, Record.empty, false⟩

/-- Page::write_record — copy the record image into the page and mark dirty. -/
def Page.writeRecord (p : Page) (r : Record) : Page := ⟨p.pageId, r, true⟩

/-- Page::read_record — copy the record image back out of the page. -/
def Page.readRecord (p : Page) : Record := p.rcd

/-- The data file: page id to the record image stored on that page.  A page
never written reads back as zeros, i.e. Record.empty (the C++ read past the
end of the file fails and leaves the zero-initialised page buffer intact). -/
abbrev DataFile := List (Nat × Record)

def fileRead (f : DataFile) (pid : Nat) : Record :=
  match f with
  | [] => Record.empty
  | (p, r) :: rest => if p = pid then r else fileRead rest pid

def fileWrite (f : DataFile) (pid : Nat) (r : Record) : DataFile :=
  match f with
  | [] => [(pid, r)]
  | (p, r0) :: rest => if p = pid then (pid, r) :: rest else (p, r0) :: fileWrite rest pid r

/-- Journal operation kinds (JournalManager::Operation). -/
inductive JOp where
  | INSERT | UPDATE | DELETE | COMMIT
  deriving DecidableEq, Repr

/-- JournalEntry struct: kind, fixed-size key and value buffers, page id. -/
structure JournalEntry where
  op : JOp
  key : ByteStr
  value : ByteStr
  pageId : Nat
  deriving DecidableEq, Repr

/-- JournalManager::log_operation — append one entry (with strncpy-truncated
key and value) at the end of the journal file and flush. -/
def logOperation (j : List JournalEntry) (op : JOp) (key value : ByteStr) (pid : Nat) :
    List JournalEntry :=
  j ++ [⟨op, strncpyStr 255 key, strncpyStr 1023 value, pid⟩]

/-- The COMMIT entry appended by JournalManager::commit (key, value and page
id take the defaults of log_operation: empty, empty, 0). -/
def commitEntry : JournalEntry := ⟨.COMMIT, [], [], 0⟩

/-- File-system events performed by the engine, in program order, for the
write-ahead-ordering claims.  journalWrite and journalFlush come from
JournalManager::log_operation; dataWrite and dataFlush come from
StorageEngine::flush_page. -/
inductive Event where
  | journalWrite (e : JournalEntry)
  | journalFlush
  | dataWrite (pid : Nat)
  | dataFlush
  deriving DecidableEq, Repr

/-- BufferPool::CacheEntry: the cached page and its last-access timestamp. -/
structure CacheEntry where
  page : Page
  accessTime : Nat
  deriving DecidableEq, Repr

/-- The buffer pool: the cache map (page id to entry) and the logical clock.
std::map iterates in key order; that order only decides ties between equal
access times during eviction, and access times in reachable pools are proved
pairwise distinct, so the map is represented by an association list. -/
structure BufferPool where
  cache : List (Nat × CacheEntry)
  currentTime : Nat
  deriving DecidableEq, Repr

def BufferPool.empty : BufferPool := ⟨[], 0⟩

/-- Lookup in the cache map. -/
def mapFind (c : List (Nat × CacheEntry)) (pid : Nat) : Option CacheEntry :=
  match c with
  | [] => none
  | (p, e) :: rest => if p = pid then some e else mapFind rest pid

/-- Insert-or-assign in the cache map (std::map operator[]). -/
def mapInsert (c : List (Nat × CacheEntry)) (pid : Nat) (e : CacheEntry) :
    List (Nat × CacheEntry) :=
  match c with
  | [] => [(pid, e)]
  | (p, e0) :: rest => if p = pid then (pid, e) :: rest else (p, e0) :: mapInsert rest pid e

/-- Erase a key from the cache map. -/
def mapErase (c : List (Nat × CacheEntry)) (pid : Nat) : List (Nat × CacheEntry) :=
  match c with
  | [] => []
  | (p, e) :: rest => if p = pid then rest else (p, e) :: mapErase rest pid

/-- BufferPool::get — on a hit bump the entry's access time to the
incremented clock and return the page; on a miss return nothing. -/
def BufferPool.get (bp : BufferPool) (pid : Nat) : BufferPool × Option Page :=
  match mapFind bp.cache pid with
  | some e =>
      (⟨mapInsert bp.cache pid ⟨e.page, bp.currentTime + 1⟩, bp.currentTime + 1⟩, some e.page)
  | none => (bp, none)

/-- The scan of BufferPool::evict_lru: the first entry with the (strictly)
smallest access time. -/
def oldestEntry (c : List (Nat × CacheEntry)) : Option (Nat × CacheEntry) :=
  match c with
  | [] => none
  | x :: rest =>
      some (rest.foldl (fun best y => if y.2.accessTime < best.2.accessTime then y else best) x)

/-- BufferPool::evict_lru — remove the entry with the smallest access time
(no flushing). -/
def BufferPool.evictLRU (bp : BufferPool) : BufferPool :=
  match oldestEntry bp.cache with
  | none => bp
  | some (pid, _) => ⟨mapErase bp.cache pid, bp.currentTime⟩

/-- BufferPool::put — if the cache is at capacity evict one entry first, then
insert the page with the incremented clock as its access time. -/
def BufferPool.put (bp : BufferPool) (pid : Nat) (pg : Page) : BufferPool :=
  let bp1 := if Config.CACHE_SIZE ≤ bp.cache.length then bp.evictLRU else bp
  ⟨mapInsert bp1.cache pid ⟨pg, bp1.currentTime + 1⟩, bp1.currentTime + 1⟩

/-- BufferPool::get_dirty_pages — all cached pages whose dirty flag is set. -/
def BufferPool.getDirtyPages (bp : BufferPool) : List Page :=
  (bp.cache.filter (fun x => x.2.page.isDirty)).map (fun x => x.2.page)

/-- BufferPool::clear — drop all entries. -/
def BufferPool.clear (bp : BufferPool) : BufferPool := ⟨[], bp.currentTime⟩

/-- Mutation of a cached page through the shared_ptr held by a caller: if the
pool holds an entry for this page id, its page object is the caller's page
object, so updating the page updates the cache entry in place (the access
time is untouched). -/
def poolSetPage (bp : BufferPool) (pid : Nat) (pg : Page) : BufferPool :=
  ⟨bp.cache.map (fun x => if x.1 = pid then (x.1, ⟨pg, x.2.accessTime⟩) else x), bp.currentTime⟩

/-- A key of the B+ tree index: the full std::string key (the index lives in
memory and does not truncate). -/
abbrev Key := ByteStr

/-- Lexicographic byte-wise comparison of std::string (operator less-than). -/
def keyLT (a b : Key) : Bool :=
  match a, b with
  | _, [] => false
  | [], _ :: _ => true
  | x :: xs, y :: ys => if x < y then true else if y < x then false else keyLT xs ys

mutual
/-- BPlusNode (source section 7): a leaf holds parallel vectors of keys and
page-id values; an internal node holds separator keys and child nodes.  The
leaf forward pointer (next) is not represented: search, insert and remove
never consult it; its rewiring by split_node is verified separately on
LeafSplitInput below. -/
inductive BPlusNode where
  | leaf (keys : List Key) (values : List Nat) : BPlusNode
  | internal (keys : List Key) (children : NodeList) : BPlusNode
  deriving DecidableEq, Repr
/-- The children vector of an internal node. -/
inductive NodeList where
  | nil : NodeList
  | cons (c : BPlusNode) (rest : NodeList) : NodeList
  deriving DecidableEq, Repr
end

/-- BPlusNode::find_position — std::lower_bound over the node's keys: the
smallest index whose key is not less than the probe (equal to the number of
leading keys less than the probe; node key vectors are scanned here rather
than binary-searched, which agrees with std::lower_bound on sorted ranges,
the contract under which the source calls it). -/
def findPosition (keys : List Key) (k : Key) : Nat :=
  match keys with
  | [] => 0
  | x :: xs => if keyLT x k then findPosition xs k + 1 else 0

/-- The child-descent adjustment applied by insert_internal, search and
remove after find_position: clamp pos to keys.size - 1 when it equals
keys.size, else decrement it when pos is positive and the probe is less than
keys[pos]. -/
def childIndex (keys : List Key) (k : Key) : Nat :=
  let pos := findPosition keys k
  if pos = keys.length then keys.length - 1
  else if 0 < pos ∧ keyLT k (keys.getD pos []) then pos - 1
  else pos

/-- vector::insert(begin + pos, a).  The source only calls it with
pos at most the length (the past-the-end case appends, matching the only
defined C++ behaviour). -/
def listInsertAt {α : Type} : List α → Nat → α → List α
  | l, 0, a => a :: l
  | [], _ + 1, a => [a]
  | x :: xs, n + 1, a => x :: listInsertAt xs n a

def nlLength : NodeList → Nat
  | .nil => 0
  | .cons _ rest => nlLength rest + 1

/-- Children prefix kept by split_node (vector::resize(mid + 1)). -/
def nlTake : Nat → NodeList → NodeList
  | 0, _ => .nil
  | _, .nil => .nil
  | n + 1, .cons c rest => .cons c (nlTake n rest)

/-- Children suffix moved by split_node (assign from begin + mid + 1). -/
def nlDrop : Nat → NodeList → NodeList
  | 0, l => l
  | _, .nil => .nil
  | n + 1, .cons _ rest => nlDrop n rest

/-- vector::insert(children.begin() + pos, c) on the children vector. -/
def nlInsertAt : NodeList → Nat → BPlusNode → NodeList
  | l, 0, a => .cons a l
  | .nil, _ + 1, a => .cons a .nil
  | .cons x xs, n + 1, a => .cons x (nlInsertAt xs n a)

mutual
/-- BPlusTreeIndex::search — descend with the child-index rule, then look the
key up in the reached leaf; 0 is the not-found sentinel.  Out-of-range child
access (impossible in the well-formed trees the engine builds, and undefined
behaviour in C++) returns the sentinel. -/
def searchNode (k : Key) : BPlusNode → Nat
  | .leaf keys values =>
      let pos := findPosition keys k
      if pos < keys.length ∧ keys.getD pos [] = k then values.getD pos 0 else 0
  | .internal keys children => searchChild k children (childIndex keys k)
/-- Descent into the pos-th child during search. -/
def searchChild (k : Key) : NodeList → Nat → Nat
  | .nil, _ => 0
  | .cons c _, 0 => searchNode k c
  | .cons _ rest, n + 1 => searchChild k rest n
end

/-- The leaf branch of split_node together with the promoted key chosen by
insert_internal (the new leaf's first key): the new right leaf receives
keys[mid..] and values[mid..], the original retains keys[..mid] and
values[..mid], with mid = keys.size / 2. -/
def leafSplit (keys : List Key) (values : List Nat) :
    (List Key × List Nat) × (List Key × List Nat) × Key :=
  let mid := keys.length / 2
  ((keys.take mid, values.take mid), (keys.drop mid, values.drop mid), (keys.drop mid).headD [])

/-- The internal branch of split_node together with the promotion performed
by insert_internal lines 427-432: split_node moves keys[mid+1..] and
children[mid+1..] to the new node and resizes the original to keys[..mid]
and children[..mid+1] (dropping keys[mid] without returning it); the caller
then promotes node.keys.back() — which is keys[mid-1] — and pops it. -/
def internalSplit (keys : List Key) (children : NodeList) :
    (List Key × NodeList) × (List Key × NodeList) × Key :=
  let mid := keys.length / 2
  let keysL := keys.take mid
  ((keysL.dropLast, nlTake (mid + 1) children),
   (keys.drop (mid + 1), nlDrop (mid + 1) children),
   keysL.getLastD [])

mutual
/-- BPlusTreeIndex::insert_internal — returns the updated node and, when the
node split, the new right sibling and the promoted key. -/
def insNode (order : Nat) (k : Key) (v : Nat) : BPlusNode → BPlusNode × Option (BPlusNode × Key)
  | .leaf keys values =>
      let pos := findPosition keys k
      if pos < keys.length ∧ keys.getD pos [] = k then
        (.leaf keys (values.set pos v), none)
      else
        let keys' := listInsertAt keys pos k
        let values' := listInsertAt values pos v
        if order ≤ keys'.length then
          match leafSplit keys' values' with
          | ((lk, lv), (rk, rv), promoted) => (.leaf lk lv, some (.leaf rk rv, promoted))
        else (.leaf keys' values', none)
  | .internal keys children =>
      let pos := childIndex keys k
      match insChild order k v children pos with
      | (children', none) => (.internal keys children', none)
      | (children', some (newChild, promoted)) =>
          let keys' := listInsertAt keys (pos + 1) promoted
          let children'' := nlInsertAt children' (pos + 1) newChild
          if order ≤ keys'.length then
            match internalSplit keys' children'' with
            | ((lk, lc), (rk, rc), midKey) => (.internal lk lc, some (.internal rk rc, midKey))
          else (.internal keys' children'', none)
/-- Recursive descent of insert_internal into the pos-th child, splicing the
updated child back into the children vector. -/
def insChild (order : Nat) (k : Key) (v : Nat) :
    NodeList → Nat → NodeList × Option (BPlusNode × Key)
  | .nil, _ => (.nil, none)
  | .cons c rest, 0 =>
      match insNode order k v c with
      | (c', res) => (.cons c' rest, res)
  | .cons c rest, n + 1 =>
      match insChild order k v rest n with
      | (rest', res) => (.cons c rest', res)
end

/-- BPlusTreeIndex::insert — run insert_internal from the root; if the root
itself split, grow a new root with the promoted key and the two children. -/
def treeInsert (order : Nat) (t : BPlusNode) (k : Key) (v : Nat) : BPlusNode :=
  match insNode order k v t with
  | (t', none) => t'
  | (t', some (newNode, promoted)) =>
      .internal [promoted] (.cons t' (.cons newNode .nil))

mutual
/-- BPlusTreeIndex::remove — descend with the child-index rule and, when the
reached leaf holds the key, tombstone it by setting its value to 0. -/
def removeNode (k : Key) : BPlusNode → BPlusNode
  | .leaf keys values =>
      let pos := findPosition keys k
      if pos < keys.length ∧ keys.getD pos [] = k then .leaf keys (values.set pos 0)
      else .leaf keys values
  | .internal keys children => .internal keys (removeChild k children (childIndex keys k))
/-- Descent of remove into the pos-th child. -/
def removeChild (k : Key) : NodeList → Nat → NodeList
  | .nil, _ => .nil
  | .cons c rest, 0 => .cons (removeNode k c) rest
  | .cons c rest, n + 1 => .cons c (removeChild k rest n)
end

/-- The empty index: a single empty leaf root. -/
def emptyTree : BPlusNode := .leaf [] []

mutual
/-- All leaf (key, page-id) pairs of a tree. -/
def nodeSlots : BPlusNode → List (Key × Nat)
  | .leaf keys values => keys.zip values
  | .internal _ children => childSlots children
/-- All leaf (key, page-id) pairs of a children vector. -/
def childSlots : NodeList → List (Key × Nat)
  | .nil => []
  | .cons c rest => nodeSlots c ++ childSlots rest
end

/-- A slot list as a multiset (order of leaves is irrelevant to the
bookkeeping of which (key, page-id) pairs the tree holds). -/
def slotsM (l : List (Key × Nat)) : Multiset (Key × Nat) := (l : Multiset (Key × Nat))

/-- All slots produced by one insert_internal call: the slots of the updated
node plus, when the node split, the slots of the new right sibling. -/
def insResultSlots (r : BPlusNode × Option (BPlusNode × Key)) : Multiset (Key × Nat) :=
  slotsM (nodeSlots r.1) +
    (match r.2 with
     | none => 0
     | some (nn, _) => slotsM (nodeSlots nn))

/-- All slots produced by one recursive descent step on the children vector. -/
def insChildResultSlots (r : NodeList × Option (BPlusNode × Key)) : Multiset (Key × Nat) :=
  slotsM (childSlots r.1) +
    (match r.2 with
     | none => 0
     | some (nn, _) => slotsM (nodeSlots nn))

mutual
/-- Shape well-formedness of the trees the engine builds: every leaf has as
many values as keys, and every internal node has at least one key and more
children than keys. -/
def nodeWF : BPlusNode → Prop
  | .leaf keys values => keys.length = values.length
  | .internal keys children =>
      1 ≤ keys.length ∧ keys.length + 1 ≤ nlLength children ∧ childWF children
/-- Shape well-formedness of every node in a children vector. -/
def childWF : NodeList → Prop
  | .nil => True
  | .cons c rest => nodeWF c ∧ childWF rest
end

mutual
def decNodeWF : (t : BPlusNode) → Decidable (nodeWF t)
  | .leaf keys values => by unfold nodeWF; infer_instance
  | .internal keys children => by
      unfold nodeWF
      have := decChildWF children
      infer_instance
def decChildWF : (cs : NodeList) → Decidable (childWF cs)
  | .nil => by unfold childWF; infer_instance
  | .cons c rest => by
      unfold childWF
      have := decNodeWF c
      have := decChildWF rest
      infer_instance
end

instance (t : BPlusNode) : Decidable (nodeWF t) := decNodeWF t

instance (cs : NodeList) : Decidable (childWF cs) := decChildWF cs

mutual
/-- Whether the descent for k reaches a leaf that holds the key k itself
(regardless of the stored value).  The descent is the one search, insert and
remove all share. -/
def keyInDescentLeaf (k : Key) : BPlusNode → Bool
  | .leaf keys _ =>
      let pos := findPosition keys k
      decide (pos < keys.length ∧ keys.getD pos [] = k)
  | .internal keys children => keyInDescentChild k children (childIndex keys k)
/-- Descent of keyInDescentLeaf into the pos-th child. -/
def keyInDescentChild (k : Key) : NodeList → Nat → Bool
  | .nil, _ => false
  | .cons c _, 0 => keyInDescentLeaf k c
  | .cons _ rest, n + 1 => keyInDescentChild k rest n
end

/-- StorageEngine state: the data file, the buffer pool, the index, the
journal file content and the next-page-id counter. -/
structure EngineState where
  file : DataFile
  pool : BufferPool
  index : BPlusNode
  journal : List JournalEntry
  nextPageId : Nat
  deriving DecidableEq, Repr

/-- StorageEngine constructed over an empty data file and an empty journal:
next_page_id = 0 / PAGE_SIZE + 1 = 1. -/
def EngineState.init : EngineState :=
  ⟨[], BufferPool.empty, emptyTree, [], 1⟩

/-- StorageEngine::load_page — return the cached page on a hit; on a miss
read the page image from the data file into a fresh clean page and put it in
the pool. -/
def loadPage (s : EngineState) (pid : Nat) : EngineState × Page :=
  match s.pool.get pid with
  | (pool', some pg) => ({ s with pool := pool' }, pg)
  | (pool', none) =>
      let pg : Page := ⟨pid, fileRead s.file pid, false⟩
      ({ s with pool := pool'.put pid pg }, pg)

/-- StorageEngine::flush_page — write the page image to the data file at the
page's offset, flush, and clear the dirty flag (on the shared page object,
hence also in the pool). -/
def flushPage (s : EngineState) (pg : Page) : EngineState × Page × List Event :=
  let pg' : Page := ⟨pg.pageId, pg.rcd, false⟩
  ({ s with file := fileWrite s.file pg.pageId pg.rcd,
            pool := poolSetPage s.pool pg.pageId pg' },
   pg', [.dataWrite pg.pageId, .dataFlush])

/-- Journal events of one log_operation call. -/
def logEvents (op : JOp) (key value : ByteStr) (pid : Nat) : List Event :=
  [.journalWrite ⟨op, strncpyStr 255 key, strncpyStr 1023 value, pid⟩, .journalFlush]

/-- StorageEngine::insert — reject an existing key (index hit); otherwise
journal the INSERT, allocate a fresh page, write the record to it, cache and
flush it, index the key, and journal the COMMIT. -/
def engineInsert (s : EngineState) (key value : ByteStr) :
    EngineState × Bool × List Event :=
  if searchNode key s.index ≠ 0 then (s, false, [])
  else
    let s1 := { s with journal := logOperation s.journal .INSERT key value 0 }
    let pid := s1.nextPageId
    let s2 := { s1 with nextPageId := pid + 1 }
    let rcd := Record.make key value pid
    let pg := (Page.make pid).writeRecord rcd
    let s3 := { s2 with pool := s2.pool.put pid pg }
    match flushPage s3 pg with
    | (s4, _, ev) =>
        let s5 := { s4 with index := treeInsert Config.BTREE_ORDER s4.index key pid }
        let s6 := { s5 with journal := logOperation s5.journal .COMMIT [] [] 0 }
        (s6, true, logEvents .INSERT key value 0 ++ ev ++ logEvents .COMMIT [] [] 0)

/-- StorageEngine::get — index lookup, then load the page and read its
record; not-found when the index misses or the record is tombstoned. -/
def engineGet (s : EngineState) (key : ByteStr) : EngineState × Bool × ByteStr :=
  let pid := searchNode key s.index
  if pid = 0 then (s, false, [])
  else
    match loadPage s pid with
    | (s1, pg) =>
        let rcd := pg.readRecord
        if rcd.isDeleted then (s1, false, [])
        else (s1, true, rcd.getValue)

/-- StorageEngine::update — index lookup, journal the UPDATE, load the page,
fail on a tombstoned record, else overwrite the record's value in place,
flush the page, and journal the COMMIT. -/
def engineUpdate (s : EngineState) (key newValue : ByteStr) :
    EngineState × Bool × List Event :=
  let pid := searchNode key s.index
  if pid = 0 then (s, false, [])
  else
    let s1 := { s with journal := logOperation s.journal .UPDATE key newValue pid }
    match loadPage s1 pid with
    | (s2, pg) =>
        let rcd := pg.readRecord
        if rcd.isDeleted then (s2, false, logEvents .UPDATE key newValue pid)
        else
          let rcd' := { rcd with value := strncpyStr 1023 newValue }
          let pg' := pg.writeRecord rcd'
          let s3 := { s2 with pool := poolSetPage s2.pool pid pg' }
          match flushPage s3 pg' with
          | (s4, _, ev) =>
              let s5 := { s4 with journal := logOperation s4.journal .COMMIT [] [] 0 }
              (s5, true, logEvents .UPDATE key newValue pid ++ ev ++ logEvents .COMMIT [] [] 0)

/-- StorageEngine::remove — index lookup, journal the DELETE, load the page,
set the record's soft-delete flag, flush the page, tombstone the index entry,
and journal the COMMIT. -/
def engineRemove (s : EngineState) (key : ByteStr) :
    EngineState × Bool × List Event :=
  let pid := searchNode key s.index
  if pid = 0 then (s, false, [])
  else
    let s1 := { s with journal := logOperation s.journal .DELETE key [] pid }
    match loadPage s1 pid with
    | (s2, pg) =>
        let rcd := pg.readRecord
        let rcd' := { rcd with isDeleted := true }
        let pg' := pg.writeRecord rcd'
        let s3 := { s2 with pool := poolSetPage s2.pool pid pg' }
        match flushPage s3 pg' with
        | (s4, _, ev) =>
            let s5 := { s4 with index := removeNode key s4.index }
            let s6 := { s5 with journal := logOperation s5.journal .COMMIT [] [] 0 }
            (s6, true, logEvents .DELETE key [] pid ++ ev ++ logEvents .COMMIT [] [] 0)

/-- Flush a list of dirty pages in order (the loop body of flush_all). -/
def flushPages (s : EngineState) : List Page → EngineState
  | [] => s
  | pg :: rest => flushPages (flushPage s pg).1 rest

/-- StorageEngine::flush_all — flush every dirty page of the pool, then
truncate the journal. -/
def engineFlushAll (s : EngineState) : EngineState :=
  let s1 := flushPages s s.pool.getDirtyPages
  { s1 with journal := [] }

/-- One public engine call, for reachability. -/
inductive EngineOp where
  | opInsert (k v : ByteStr)
  | opGet (k : ByteStr)
  | opUpdate (k v : ByteStr)
  | opRemove (k : ByteStr)
  | opFlushAll
  deriving DecidableEq, Repr

/-- State reached after one public engine call (results discarded). -/
def applyOp (s : EngineState) : EngineOp → EngineState
  | .opInsert k v => (engineInsert s k v).1
  | .opGet k => (engineGet s k).1
  | .opUpdate k v => (engineUpdate s k v).1
  | .opRemove k => (engineRemove s k).1
  | .opFlushAll => engineFlushAll s

/-- State reached from a freshly opened engine over empty files by a
sequence of public calls. -/
def runOps (ops : List EngineOp) : EngineState :=
  ops.foldl applyOp EngineState.init

/-- The keys and values an engine call passes are well formed in the sense
of the spec's data model (section 3). -/
def WFOp : EngineOp → Prop
  | .opInsert k v => WFKey k ∧ WFValue v
  | .opGet k => WFKey k
  | .opUpdate k v => WFKey k ∧ WFValue v
  | .opRemove k => WFKey k
  | .opFlushAll => True

instance : DecidablePred WFOp := fun op => by cases op <;> unfold WFOp <;> infer_instance

/-- A leaf node together with its forward pointer, to verify the leaf branch
of split_node including the next-pointer rewiring which the main tree type
omits.  Node references are abstract (any type ρ). -/
structure LeafWithNext (ρ : Type) where
  keys : List Key
  values : List Nat
  next : Option ρ
  deriving DecidableEq, Repr

/-- The leaf branch of split_node (source lines 351-362) on a leaf with its
forward pointer: the new right leaf receives keys[mid..] and values[mid..]
and the original's previous forward pointer; the original retains keys[..mid]
and values[..mid] and now points forward to the new leaf (newRef).  Returned
as (trimmed original, new right leaf). -/
def splitLeafNode {ρ : Type} (nd : LeafWithNext ρ) (newRef : ρ) :
    LeafWithNext ρ × LeafWithNext ρ :=
  let mid := nd.keys.length / 2
  (⟨nd.keys.take mid, nd.values.take mid, some newRef⟩,
   ⟨nd.keys.drop mid, nd.values.drop mid, nd.next⟩)

/-- Write-ahead ordering of one mutating operation's event trace: every
data-file write is preceded by the append of the operation's journal entry
followed by a journal flush, and a COMMIT journal entry, itself immediately
flushed, comes strictly after every data-file write and data-file flush. -/
def WriteAheadTrace (tr : List Event) (e : JournalEntry) : Prop :=
  (∀ i pid, tr[i]? = some (Event.dataWrite pid) →
      ∃ a b : Nat, a < b ∧ b < i ∧ tr[a]? = some (Event.journalWrite e) ∧
        tr[b]? = some Event.journalFlush) ∧
  (∃ c : Nat, tr[c]? = some (Event.journalWrite commitEntry) ∧
      tr[c + 1]? = some Event.journalFlush ∧
      (∀ i pid, tr[i]? = some (Event.dataWrite pid) → i < c) ∧
      (∀ i, tr[i]? = some Event.dataFlush → i < c))

/-- Engine state after n inserts of the ascending single-byte keys
[1], [2], ..., [n] (with value [i] for key [i]), from a fresh engine. -/
def benchIns : Nat → EngineState
  | 0 => EngineState.init
  | n + 1 => (engineInsert (benchIns n) [n + 1] [n + 1]).1

/-- Conjunction of the success flags of the n ascending inserts. -/
def benchOK : Nat → Bool
  | 0 => true
  | n + 1 => benchOK n && (engineInsert (benchIns n) [n + 1] [n + 1]).2.1

/-- The index after the first n ascending inserts (n < 64: a single leaf
with keys [1]..[n] and page-id values 1..n). -/
def benchLeaf (n : Nat) : BPlusNode :=
  .leaf ((List.range n).map (fun i => [i + 1])) ((List.range n).map (fun i => i + 1))

/-- The index right after the 64th ascending insert: the root leaf split at
mid = 32; keys [33]..[64] moved to the right leaf and [33] was promoted. -/
def benchSplitTree : BPlusNode :=
  .internal [[33]]
    (.cons (.leaf ((List.range 32).map (fun i => [i + 1]))
             ((List.range 32).map (fun i => i + 1)))
      (.cons (.leaf ((List.range 32).map (fun i => [i + 33]))
               ((List.range 32).map (fun i => i + 33)))
        .nil))

/-- The 64 separator keys [0], [1], ..., [63] of a full internal node. -/
def c2keys : List Key := (List.range 64).map (fun i => [i])

/-- A children vector of n distinguishable leaves. -/
def nlChildren : Nat → NodeList
  | 0 => .nil
  | n + 1 => .cons (.leaf [[200]] [n + 1]) (nlChildren n)

/-- One public buffer-pool call, for pool-level reachability. -/
inductive PoolOp where
  | pget (pid : Nat)
  | pput (pid : Nat) (pg : Page)

/-- Pool state after one public pool call. -/
def applyPoolOp (bp : BufferPool) : PoolOp → BufferPool
  | .pget pid => (bp.get pid).1
  | .pput pid pg => bp.put pid pg

/-- Pool state reached from the empty pool by a sequence of get and put
calls. -/
def runPoolOps (ops : List PoolOp) : BufferPool :=
  ops.foldl applyPoolOp BufferPool.empty

/-- Clock-and-distinctness invariant of reachable pools: every access time
is at most the clock, and access times are pairwise distinct. -/
def PoolTimesOK (bp : BufferPool) : Prop :=
  (∀ x ∈ bp.cache, x.2.accessTime ≤ bp.currentTime) ∧
  (bp.cache.map (fun x => x.2.accessTime)).Nodup

/-- Coherence of the buffer pool with the data file: every cached page
carries its own id, is clean, and its record image equals the data file's
content for that page. -/
def PoolCoherent (s : EngineState) : Prop :=
  ∀ x ∈ s.pool.cache, x.2.page.pageId = x.1 ∧ x.2.page.isDirty = false ∧
    x.2.page.rcd = fileRead s.file x.1

/-- The page-id values of a slot list that are live (nonzero), with
multiplicity. -/
def nzVals (l : List (Key × Nat)) : Multiset Nat :=
  ((l.map Prod.snd).filter (fun v => v ≠ 0) : List Nat)

/-- A pool holding exactly CACHE_SIZE entries (pairwise-distinct page ids
and access times), to witness eviction on a full pool. -/
def fullPool : BufferPool :=
  ⟨(List.range 100).map (fun i => (i + 1, ⟨Page.make (i + 1), i + 1⟩)), 101⟩

/-- Inductive invariant of reachable engine states (under well-formed keys
and values): the index tree is well shaped, page ids start at 1, the pool is
coherent with the file, every live index slot points below the allocation
counter at a live record carrying the slot's key, and live slot values are
pairwise distinct. -/
def EngineInv (s : EngineState) : Prop :=
  nodeWF s.index ∧ 1 ≤ s.nextPageId ∧ PoolCoherent s ∧
  (∀ x ∈ nodeSlots s.index, x.2 ≠ 0 → x.2 < s.nextPageId ∧
     (fileRead s.file x.2).key = x.1 ∧ (fileRead s.file x.2).isDeleted = false) ∧
  Multiset.Nodup (nzVals (nodeSlots s.index))

/-- The live (nonzero) page-id values of a slot multiset, with
multiplicity (the multiset counterpart of nzVals). -/
def nzM (m : Multiset (Key × Nat)) : Multiset Nat :=
  Multiset.filter (fun v => v ≠ 0) (Multiset.map Prod.snd m)


/-! ## Theorems -/

theorem strncpyStr_of_wf_key {k : ByteStr} (h : WFKey k) : strncpyStr 255 k = k := by
  obtain ⟨hlen, hnz⟩ := h
  unfold strncpyStr
  rw [List.takeWhile_eq_self_iff.mpr (by intro b hb; simpa using hnz b hb)]
  exact List.take_of_length_le hlen

theorem strncpyStr_of_wf_value {v : ByteStr} (h : WFValue v) : strncpyStr 1023 v = v := by
  obtain ⟨hlen, hnz⟩ := h
  unfold strncpyStr
  rw [List.takeWhile_eq_self_iff.mpr (by intro b hb; simpa using hnz b hb)]
  exact List.take_of_length_le hlen

theorem engineGet_miss {s : EngineState} {k : ByteStr} (h : searchNode k s.index = 0) :
    engineGet s k = (s, false, []) := by
  simp [engineGet, h]

theorem engineInsert_dup {s : EngineState} {k v : ByteStr} (h : searchNode k s.index ≠ 0) :
    engineInsert s k v = (s, false, []) := by
  simp [engineInsert, h]

theorem engineInsert_proj {s : EngineState} {k v : ByteStr}
    (h : searchNode k s.index = 0) :
    (engineInsert s k v).1.index = treeInsert Config.BTREE_ORDER s.index k s.nextPageId ∧
    (engineInsert s k v).1.nextPageId = s.nextPageId + 1 ∧
    (engineInsert s k v).2.1 = true := by
  simp [engineInsert, h, flushPage]

/-- C5: for every engine state in which the index already maps k to a
nonzero page id, insert(k, v) returns false and leaves the whole engine
state (file, pool, index, journal, allocation counter) unchanged, performing
no file-system event; concretely, from a fresh engine, insert of key "k"
(byte 107) with value "v1" succeeds, a second insert of the same key with
value "v2" fails, and get still returns value "v1". -/
theorem insert_duplicate_rejected :
    (∀ (s : EngineState) (k v : ByteStr), searchNode k s.index ≠ 0 →
        engineInsert s k v = (s, false, [])) ∧
    ((engineInsert EngineState.init [107] [118, 49]).2.1 = true ∧
      (engineInsert ((engineInsert EngineState.init [107] [118, 49]).1) [107] [118, 50]).2.1
        = false ∧
      (engineInsert ((engineInsert EngineState.init [107] [118, 49]).1) [107] [118, 50]).1
        = (engineInsert EngineState.init [107] [118, 49]).1 ∧
      (engineGet ((engineInsert ((engineInsert EngineState.init [107] [118, 49]).1)
          [107] [118, 50]).1) [107]).2 = (true, [118, 49])) := by
  refine ⟨fun s k v h => engineInsert_dup h, ?_, ?_, ?_, ?_⟩ <;> decide

theorem insert_duplicate_rejected_witness :
    engineInsert (benchIns 1) [1] [9] = (benchIns 1, false, []) :=
  insert_duplicate_rejected.1 (benchIns 1) [1] [9] (by decide)

/-- C2 (code-bug evidence): on a full internal node with separator keys
k0 = [0], ..., k63 = [63] (so mid = 32), the split as implemented — split_node
followed by the promotion step of insert_internal — promotes k31 = [31]
rather than k32 = [32], leaves the original with keys k0..k30 rather than
k0..k31, and the separator k32 = [32] is in neither part nor promoted, i.e.
it is lost; only the children movement (children[..mid+1] kept,
children[mid+1..] moved) matches the claim. -/
theorem internal_split_drops_separator :
    (internalSplit c2keys (nlChildren 65)).2.2 = [31] ∧
    (internalSplit c2keys (nlChildren 65)).1.1 = (List.range 31).map (fun i => [i]) ∧
    (internalSplit c2keys (nlChildren 65)).2.1.1 = (List.range 31).map (fun i => [i + 33]) ∧
    [32] ∈ c2keys ∧
    [32] ∉ (internalSplit c2keys (nlChildren 65)).1.1 ∧
    [32] ∉ (internalSplit c2keys (nlChildren 65)).2.1.1 ∧
    (internalSplit c2keys (nlChildren 65)).2.2 ≠ [32] ∧
    (internalSplit c2keys (nlChildren 65)).1.2 = nlTake 33 (nlChildren 65) ∧
    (internalSplit c2keys (nlChildren 65)).2.1.2 = nlDrop 33 (nlChildren 65) := by
  decide

theorem headD_drop {α : Type} (l : List α) (n : Nat) (d : α) :
    (l.drop n).headD d = l.getD n d := by
  induction l generalizing n with
  | nil => cases n <;> rfl
  | cons x xs ih =>
      cases n with
      | zero => rfl
      | succ m => simp [ih m]

/-- C7: when a leaf with keys k0..k(s-1) splits (mid = s / 2), the new right
leaf receives keys[mid..] and values[mid..], the original retains keys[..mid]
and values[..mid], the right leaf's forward pointer becomes the original's
previous forward pointer, the original's forward pointer becomes the new
right leaf, the promoted key equals the right leaf's first key, namely
keys[mid], it remains present in the right leaf, and no key is lost. -/
theorem leaf_split_spec {ρ : Type} (keys : List Key) (values : List Nat) (next : Option ρ)
    (newRef : ρ) (h : 1 ≤ keys.length) :
    (splitLeafNode ⟨keys, values, next⟩ newRef).2.keys = keys.drop (keys.length / 2) ∧
    (splitLeafNode ⟨keys, values, next⟩ newRef).2.values = values.drop (keys.length / 2) ∧
    (splitLeafNode ⟨keys, values, next⟩ newRef).1.keys = keys.take (keys.length / 2) ∧
    (splitLeafNode ⟨keys, values, next⟩ newRef).1.values = values.take (keys.length / 2) ∧
    (splitLeafNode ⟨keys, values, next⟩ newRef).2.next = next ∧
    (splitLeafNode ⟨keys, values, next⟩ newRef).1.next = some newRef ∧
    (leafSplit keys values).2.2 = keys.getD (keys.length / 2) [] ∧
    (leafSplit keys values).2.2 ∈ (leafSplit keys values).2.1.1 ∧
    (splitLeafNode ⟨keys, values, next⟩ newRef).1.keys ++
      (splitLeafNode ⟨keys, values, next⟩ newRef).2.keys = keys := by
  have hmid : keys.length / 2 < keys.length := Nat.div_lt_self (by omega) (by omega)
  have hne : keys.drop (keys.length / 2) ≠ [] := by
    intro hd
    have := List.length_drop (keys.length / 2) keys
    rw [hd] at this
    simp at this
    omega
  refine ⟨rfl, rfl, rfl, rfl, rfl, rfl, ?_, ?_, ?_⟩
  · exact headD_drop keys (keys.length / 2) []
  · show (keys.drop (keys.length / 2)).headD [] ∈ keys.drop (keys.length / 2)
    cases hk : keys.drop (keys.length / 2) with
    | nil => exact absurd hk hne
    | cons y ys => simp
  · exact List.take_append_drop (keys.length / 2) keys

theorem leaf_split_spec_witness :
    (splitLeafNode (⟨[[1], [2]], [5, 6], (none : Option Nat)⟩ : LeafWithNext Nat) 7).2.keys
      = ([[1], [2]] : List Key).drop (([[1], [2]] : List Key).length / 2) :=
  (leaf_split_spec [[1], [2]] [5, 6] none 7 (by decide)).1

theorem writeAhead_shape (e : JournalEntry) (p : Nat) :
    WriteAheadTrace [Event.journalWrite e, Event.journalFlush, Event.dataWrite p,
      Event.dataFlush, Event.journalWrite commitEntry, Event.journalFlush] e := by
  constructor
  · intro i pid h
    match i, h with
    | 2, h => exact ⟨0, 1, by omega, by omega, rfl, rfl⟩
    | 0, h => simp at h
    | 1, h => simp at h
    | 3, h => simp at h
    | 4, h => simp at h
    | 5, h => simp at h
    | n + 6, h => simp at h
  · refine ⟨4, rfl, rfl, ?_, ?_⟩
    · intro i pid h
      match i, h with
      | 2, _ => omega
      | 0, h => simp at h
      | 1, h => simp at h
      | 3, h => simp at h
      | 4, h => simp at h
      | 5, h => simp at h
      | n + 6, h => simp at h
    · intro i h
      match i, h with
      | 3, _ => omega
      | 0, h => simp at h
      | 1, h => simp at h
      | 2, h => simp at h
      | 4, h => simp at h
      | 5, h => simp at h
      | n + 6, h => simp at h

theorem engineInsert_trace {s : EngineState} {k v : ByteStr}
    (h : searchNode k s.index = 0) :
    (engineInsert s k v).2.2 =
      [Event.journalWrite ⟨.INSERT, strncpyStr 255 k, strncpyStr 1023 v, 0⟩,
       Event.journalFlush, Event.dataWrite s.nextPageId, Event.dataFlush,
       Event.journalWrite commitEntry, Event.journalFlush] := by
  simp [engineInsert, h, flushPage, logEvents, Page.make, Page.writeRecord, commitEntry,
    strncpyStr]

theorem engineUpdate_trace {s : EngineState} {k v : ByteStr}
    (h : (engineUpdate s k v).2.1 = true) :
    ∃ p : Nat, (engineUpdate s k v).2.2 =
      [Event.journalWrite ⟨.UPDATE, strncpyStr 255 k, strncpyStr 1023 v,
          searchNode k s.index⟩,
       Event.journalFlush, Event.dataWrite p, Event.dataFlush,
       Event.journalWrite commitEntry, Event.journalFlush] := by
  by_cases h0 : searchNode k s.index = 0
  · simp [engineUpdate, h0] at h
  · rcases hl : loadPage { s with journal := logOperation s.journal .UPDATE k v (searchNode k s.index) } (searchNode k s.index) with ⟨s2, pg⟩
    by_cases hd : pg.readRecord.isDeleted
    · exfalso
      simp [engineUpdate, h0, hl, hd] at h
    · exact ⟨pg.pageId, by
        simp [engineUpdate, h0, hl, hd, flushPage, logEvents, Page.writeRecord, commitEntry,
          strncpyStr]⟩

theorem engineRemove_trace {s : EngineState} {k : ByteStr}
    (h : (engineRemove s k).2.1 = true) :
    ∃ p : Nat, (engineRemove s k).2.2 =
      [Event.journalWrite ⟨.DELETE, strncpyStr 255 k, [], searchNode k s.index⟩,
       Event.journalFlush, Event.dataWrite p, Event.dataFlush,
       Event.journalWrite commitEntry, Event.journalFlush] := by
  by_cases h0 : searchNode k s.index = 0
  · simp [engineRemove, h0] at h
  · rcases hl : loadPage { s with journal := logOperation s.journal .DELETE k [] (searchNode k s.index) } (searchNode k s.index) with ⟨s2, pg⟩
    exact ⟨pg.pageId, by
      simp [engineRemove, h0, hl, flushPage, logEvents, Page.writeRecord, commitEntry,
        strncpyStr]⟩

/-- C9: for every successful insert, update or remove, the operation's event
trace satisfies write-ahead ordering: the journal entry describing the
operation is appended and flushed strictly before any write to the data
file, and the COMMIT journal entry, itself immediately flushed, is appended
strictly after the data-page write and after its flush — the data file is
never mutated before the operation's journal entry is durable. -/
theorem write_ahead_ordering :
    (∀ (s : EngineState) (k v : ByteStr), (engineInsert s k v).2.1 = true →
        WriteAheadTrace (engineInsert s k v).2.2
          ⟨.INSERT, strncpyStr 255 k, strncpyStr 1023 v, 0⟩) ∧
    (∀ (s : EngineState) (k v : ByteStr), (engineUpdate s k v).2.1 = true →
        WriteAheadTrace (engineUpdate s k v).2.2
          ⟨.UPDATE, strncpyStr 255 k, strncpyStr 1023 v, searchNode k s.index⟩) ∧
    (∀ (s : EngineState) (k : ByteStr), (engineRemove s k).2.1 = true →
        WriteAheadTrace (engineRemove s k).2.2
          ⟨.DELETE, strncpyStr 255 k, [], searchNode k s.index⟩) := by
  refine ⟨?_, ?_, ?_⟩
  · intro s k v h
    have h0 : searchNode k s.index = 0 := by
      by_contra h0
      rw [engineInsert_dup h0] at h
      simp at h
    rw [engineInsert_trace h0]
    exact writeAhead_shape _ _
  · intro s k v h
    obtain ⟨p, hp⟩ := engineUpdate_trace h
    rw [hp]
    exact writeAhead_shape _ _
  · intro s k h
    obtain ⟨p, hp⟩ := engineRemove_trace h
    rw [hp]
    exact writeAhead_shape _ _

theorem write_ahead_ordering_witness :
    WriteAheadTrace (engineInsert EngineState.init [1] [2]).2.2
      ⟨.INSERT, strncpyStr 255 [1], strncpyStr 1023 [2], 0⟩ :=
  write_ahead_ordering.1 EngineState.init [1] [2] (by decide)

set_option maxRecDepth 10000 in
theorem benchState : ∀ n, n ≤ 63 →
    (benchIns n).index = benchLeaf n ∧ (benchIns n).nextPageId = n + 1 ∧
    benchOK n = true := by
  have hstep : ∀ n, n < 63 → searchNode [n + 1] (benchLeaf n) = 0 ∧
      treeInsert 64 (benchLeaf n) [n + 1] (n + 1) = benchLeaf (n + 1) := by decide
  intro n
  induction n with
  | zero => exact fun _ => ⟨rfl, rfl, rfl⟩
  | succ m ih =>
      intro hm
      obtain ⟨hidx, hpid, hok⟩ := ih (by omega)
      obtain ⟨hs, ht⟩ := hstep m (by omega)
      have hs0 : searchNode [m + 1] (benchIns m).index = 0 := by rw [hidx]; exact hs
      obtain ⟨hi1, hi2, hi3⟩ := engineInsert_proj (v := [m + 1]) hs0
      refine ⟨?_, ?_, ?_⟩
      · show (engineInsert (benchIns m) [m + 1] [m + 1]).1.index = benchLeaf (m + 1)
        rw [hi1, hidx, hpid]
        simpa [Config.BTREE_ORDER] using ht
      · show (engineInsert (benchIns m) [m + 1] [m + 1]).1.nextPageId = m + 1 + 1
        rw [hi2, hpid]
      · show benchOK (m + 1) = true
        simp [benchOK, hok, hi3]

set_option maxRecDepth 10000 in
theorem benchSplit64 : (benchIns 64).index = benchSplitTree ∧ benchOK 64 = true := by
  have hstep64 : searchNode [64] (benchLeaf 63) = 0 ∧
      treeInsert 64 (benchLeaf 63) [64] 64 = benchSplitTree := by decide
  obtain ⟨hidx, hpid, hok⟩ := benchState 63 (by omega)
  have hs0 : searchNode [64] (benchIns 63).index = 0 := by rw [hidx]; exact hstep64.1
  obtain ⟨hi1, hi2, hi3⟩ := engineInsert_proj (v := [64]) hs0
  constructor
  · show (engineInsert (benchIns 63) [64] [64]).1.index = benchSplitTree
    rw [hi1, hidx, hpid]
    simpa [Config.BTREE_ORDER] using hstep64.2
  · show benchOK (63 + 1) = true
    rw [benchOK, hok, hi3]
    rfl

theorem mapInsert_mem {c : List (Nat × CacheEntry)} {pid : Nat} {e : CacheEntry}
    {x : Nat × CacheEntry} (h : x ∈ mapInsert c pid e) : x = (pid, e) ∨ x ∈ c := by
  induction c with
  | nil =>
      simp [mapInsert] at h
      exact Or.inl h
  | cons y rest ih =>
      by_cases hp : y.1 = pid
      · rw [show (y :: rest) = ((y.1, y.2) :: rest) from rfl] at h
        simp only [mapInsert, if_pos hp] at h
        rcases List.mem_cons.mp h with h | h
        · exact Or.inl h
        · exact Or.inr (List.mem_cons_of_mem _ h)
      · rw [show (y :: rest) = ((y.1, y.2) :: rest) from rfl] at h
        simp only [mapInsert, if_neg hp] at h
        rcases List.mem_cons.mp h with h | h
        · exact Or.inr (by rw [h]; exact List.mem_cons_self _ _)
        · rcases ih h with h | h
          · exact Or.inl h
          · exact Or.inr (List.mem_cons_of_mem _ h)

theorem mapFind_mem {c : List (Nat × CacheEntry)} {pid : Nat} {e : CacheEntry}
    (h : mapFind c pid = some e) : (pid, e) ∈ c := by
  induction c with
  | nil => simp [mapFind] at h
  | cons y rest ih =>
      by_cases hp : y.1 = pid
      · rw [show (y :: rest) = ((y.1, y.2) :: rest) from rfl] at h
        simp only [mapFind, if_pos hp, Option.some.injEq] at h
        rw [← hp, ← h]
        exact List.mem_cons_self _ _
      · rw [show (y :: rest) = ((y.1, y.2) :: rest) from rfl] at h
        simp only [mapFind, if_neg hp] at h
        exact List.mem_cons_of_mem _ (ih h)

theorem mapInsert_length_le (c : List (Nat × CacheEntry)) (pid : Nat) (e : CacheEntry) :
    (mapInsert c pid e).length ≤ c.length + 1 := by
  induction c with
  | nil => simp [mapInsert]
  | cons y rest ih =>
      rw [show (y :: rest) = ((y.1, y.2) :: rest) from rfl]
      simp only [mapInsert]
      by_cases hp : y.1 = pid
      · simp [hp]
      · simp only [if_neg hp, List.length_cons]
        omega

theorem mapInsert_length_found {c : List (Nat × CacheEntry)} {pid : Nat} {e0 : CacheEntry}
    (h : mapFind c pid = some e0) (e : CacheEntry) :
    (mapInsert c pid e).length = c.length := by
  induction c with
  | nil => simp [mapFind] at h
  | cons y rest ih =>
      by_cases hp : y.1 = pid
      · rw [show (y :: rest) = ((y.1, y.2) :: rest) from rfl]
        simp [mapInsert, hp]
      · rw [show (y :: rest) = ((y.1, y.2) :: rest) from rfl] at h ⊢
        simp only [mapFind, if_neg hp] at h
        simp only [mapInsert, if_neg hp, List.length_cons]
        rw [ih h]

theorem mapErase_length {c : List (Nat × CacheEntry)} {pid : Nat}
    (h : ∃ e, (pid, e) ∈ c) : (mapErase c pid).length + 1 = c.length := by
  induction c with
  | nil => simp at h
  | cons y rest ih =>
      by_cases hp : y.1 = pid
      · rw [show (y :: rest) = ((y.1, y.2) :: rest) from rfl]
        simp [mapErase, hp]
      · rw [show (y :: rest) = ((y.1, y.2) :: rest) from rfl]
        simp only [mapErase, if_neg hp, List.length_cons]
        obtain ⟨e, he⟩ := h
        rcases List.mem_cons.mp he with he | he
        · exact absurd (congrArg Prod.fst he.symm) hp
        · rw [ih ⟨e, he⟩]

theorem foldl_oldest_mem (rest : List (Nat × CacheEntry)) (acc : Nat × CacheEntry) :
    rest.foldl (fun best y => if y.2.accessTime < best.2.accessTime then y else best) acc
      = acc ∨
    rest.foldl (fun best y => if y.2.accessTime < best.2.accessTime then y else best) acc
      ∈ rest := by
  induction rest generalizing acc with
  | nil => exact Or.inl rfl
  | cons y ys ih =>
      simp only [List.foldl_cons]
      rcases ih (if y.2.accessTime < acc.2.accessTime then y else acc) with h | h
      · rw [h]
        by_cases hy : y.2.accessTime < acc.2.accessTime
        · rw [if_pos hy]
          exact Or.inr (List.mem_cons_self _ _)
        · rw [if_neg hy]
          exact Or.inl rfl
      · exact Or.inr (List.mem_cons_of_mem _ h)

theorem foldl_oldest_le (rest : List (Nat × CacheEntry)) (acc : Nat × CacheEntry) :
    (rest.foldl (fun best y => if y.2.accessTime < best.2.accessTime then y else best)
        acc).2.accessTime ≤ acc.2.accessTime ∧
    ∀ y ∈ rest,
      (rest.foldl (fun best y => if y.2.accessTime < best.2.accessTime then y else best)
        acc).2.accessTime ≤ y.2.accessTime := by
  induction rest generalizing acc with
  | nil => exact ⟨Nat.le_refl _, by simp⟩
  | cons y ys ih =>
      simp only [List.foldl_cons]
      by_cases hy : y.2.accessTime < acc.2.accessTime
      · rw [if_pos hy]
        obtain ⟨h1, h2⟩ := ih y
        refine ⟨by omega, ?_⟩
        intro z hz
        rcases List.mem_cons.mp hz with hz | hz
        · subst hz
          exact h1
        · exact h2 z hz
      · rw [if_neg hy]
        obtain ⟨h1, h2⟩ := ih acc
        refine ⟨h1, ?_⟩
        intro z hz
        rcases List.mem_cons.mp hz with hz | hz
        · subst hz
          omega
        · exact h2 z hz

theorem oldestEntry_spec {c : List (Nat × CacheEntry)} {x : Nat × CacheEntry}
    (h : oldestEntry c = some x) :
    x ∈ c ∧ ∀ y ∈ c, x.2.accessTime ≤ y.2.accessTime := by
  cases c with
  | nil => simp [oldestEntry] at h
  | cons y rest =>
      simp only [oldestEntry, Option.some.injEq] at h
      subst h
      constructor
      · rcases foldl_oldest_mem rest y with h | h
        · rw [h]; exact List.mem_cons_self _ _
        · exact List.mem_cons_of_mem _ h
      · intro z hz
        obtain ⟨h1, h2⟩ := foldl_oldest_le rest y
        rcases List.mem_cons.mp hz with hz | hz
        · subst hz
          exact h1
        · exact h2 z hz

theorem evictLRU_length {bp : BufferPool} (h : bp.cache ≠ []) :
    bp.evictLRU.cache.length + 1 = bp.cache.length := by
  cases hc : oldestEntry bp.cache with
  | none =>
      cases hcc : bp.cache with
      | nil => exact absurd hcc h
      | cons y rest => rw [hcc] at hc; simp [oldestEntry] at hc
  | some x =>
      have hx := (oldestEntry_spec hc).1
      simp only [BufferPool.evictLRU, hc]
      exact mapErase_length ⟨x.2, by simpa using hx⟩

theorem put_length {bp : BufferPool} (h : bp.cache.length ≤ Config.CACHE_SIZE)
    (pid : Nat) (pg : Page) : (bp.put pid pg).cache.length ≤ Config.CACHE_SIZE := by
  simp only [BufferPool.put]
  by_cases hfull : Config.CACHE_SIZE ≤ bp.cache.length
  · rw [if_pos hfull]
    have hne : bp.cache ≠ [] := by
      intro hc
      rw [hc] at hfull
      simp [Config.CACHE_SIZE] at hfull
    have h1 := evictLRU_length hne
    have h2 := mapInsert_length_le bp.evictLRU.cache pid ⟨pg, bp.evictLRU.currentTime + 1⟩
    omega
  · rw [if_neg hfull]
    have h2 := mapInsert_length_le bp.cache pid ⟨pg, bp.currentTime + 1⟩
    omega

theorem get_length (bp : BufferPool) (pid : Nat) :
    ((bp.get pid).1).cache.length = bp.cache.length := by
  simp only [BufferPool.get]
  cases hf : mapFind bp.cache pid with
  | none => rfl
  | some e => exact mapInsert_length_found hf _

theorem poolSetPage_length (bp : BufferPool) (pid : Nat) (pg : Page) :
    (poolSetPage bp pid pg).cache.length = bp.cache.length := by
  simp [poolSetPage]

theorem loadPage_pool_length {s : EngineState} (h : s.pool.cache.length ≤ Config.CACHE_SIZE)
    (pid : Nat) : ((loadPage s pid).1).pool.cache.length ≤ Config.CACHE_SIZE := by
  simp only [loadPage, BufferPool.get]
  cases hf : mapFind s.pool.cache pid with
  | some e =>
      simp only [hf]
      have heq := mapInsert_length_found hf (⟨e.page, s.pool.currentTime + 1⟩ : CacheEntry)
      simp only [heq]
      exact h
  | none =>
      simp only [hf]
      exact put_length h pid _

theorem flushPage_pool_length (s : EngineState) (pg : Page) :
    ((flushPage s pg).1).pool.cache.length = s.pool.cache.length := by
  simp [flushPage, poolSetPage_length]

theorem flushPages_pool_length (l : List Page) (s : EngineState) :
    (flushPages s l).pool.cache.length = s.pool.cache.length := by
  induction l generalizing s with
  | nil => rfl
  | cons pg rest ih =>
      show (flushPages (flushPage s pg).1 rest).pool.cache.length = _
      rw [ih, flushPage_pool_length]

theorem applyOp_pool_length {s : EngineState} (h : s.pool.cache.length ≤ Config.CACHE_SIZE)
    (op : EngineOp) : ((applyOp s op).pool.cache.length ≤ Config.CACHE_SIZE) := by
  cases op with
  | opInsert k v =>
      show ((engineInsert s k v).1.pool.cache.length ≤ _)
      by_cases h0 : searchNode k s.index = 0
      · simp only [engineInsert, h0, ne_eq, not_true_eq_false, if_false, flushPage]
        rw [poolSetPage_length]
        exact put_length h _ _
      · rw [engineInsert_dup h0]
        exact h
  | opGet k =>
      show ((engineGet s k).1.pool.cache.length ≤ _)
      by_cases h0 : searchNode k s.index = 0
      · rw [engineGet_miss h0]
        exact h
      · simp only [engineGet, h0, if_neg h0]
        cases hl : loadPage s (searchNode k s.index) with
        | mk s1 pg =>
            have := loadPage_pool_length h (searchNode k s.index)
            rw [hl] at this
            by_cases hd : pg.readRecord.isDeleted <;> simp [hd] <;> exact this
  | opUpdate k v =>
      show ((engineUpdate s k v).1.pool.cache.length ≤ _)
      by_cases h0 : searchNode k s.index = 0
      · simp only [engineUpdate, if_pos h0]
        exact h
      · simp only [engineUpdate, if_neg h0]
        cases hl : loadPage { s with journal := logOperation s.journal .UPDATE k v (searchNode k s.index) } (searchNode k s.index) with
        | mk s2 pg =>
            have hlen : s2.pool.cache.length ≤ Config.CACHE_SIZE := by
              have := loadPage_pool_length (s := { s with journal := logOperation s.journal .UPDATE k v (searchNode k s.index) }) h (searchNode k s.index)
              rw [hl] at this
              exact this
            by_cases hd : pg.readRecord.isDeleted
            · simp [hd]
              exact hlen
            · simp only [hd, if_false, Bool.false_eq_true, flushPage]
              simp [poolSetPage_length, hlen]
  | opRemove k =>
      show ((engineRemove s k).1.pool.cache.length ≤ _)
      by_cases h0 : searchNode k s.index = 0
      · simp only [engineRemove, if_pos h0]
        exact h
      · simp only [engineRemove, if_neg h0]
        cases hl : loadPage { s with journal := logOperation s.journal .DELETE k [] (searchNode k s.index) } (searchNode k s.index) with
        | mk s2 pg =>
            have hlen : s2.pool.cache.length ≤ Config.CACHE_SIZE := by
              have := loadPage_pool_length (s := { s with journal := logOperation s.journal .DELETE k [] (searchNode k s.index) }) h (searchNode k s.index)
              rw [hl] at this
              exact this
            simp only [flushPage]
            simp [poolSetPage_length, hlen]
  | opFlushAll =>
      show ((engineFlushAll s).pool.cache.length ≤ _)
      simp only [engineFlushAll]
      rw [flushPages_pool_length]
      exact h

/-- C3: starting from the empty pool, any finite sequence of buffer-pool get
and put calls leaves at most CACHE_SIZE = 100 entries in the pool — and hence
so does any sequence of engine CRUD (and flush_all) calls from a fresh
engine; moreover put on a pool holding exactly CACHE_SIZE entries first
evicts exactly one entry (evict_lru shrinks the cache by one) and then
inserts, staying within the bound. -/
theorem cache_bound :
    (∀ ops : List PoolOp, (runPoolOps ops).cache.length ≤ Config.CACHE_SIZE) ∧
    (∀ ops : List EngineOp, (runOps ops).pool.cache.length ≤ Config.CACHE_SIZE) ∧
    (∀ (bp : BufferPool) (pid : Nat) (pg : Page),
        bp.cache.length = Config.CACHE_SIZE →
        bp.evictLRU.cache.length = Config.CACHE_SIZE - 1 ∧
        (bp.put pid pg).cache.length ≤ Config.CACHE_SIZE) := by
  refine ⟨?_, ?_, ?_⟩
  · intro ops
    have : ∀ bp : BufferPool, bp.cache.length ≤ Config.CACHE_SIZE →
        (ops.foldl applyPoolOp bp).cache.length ≤ Config.CACHE_SIZE := by
      induction ops with
      | nil => exact fun bp h => h
      | cons op rest ih =>
          intro bp h
          refine ih _ ?_
          cases op with
          | pget pid =>
              show ((bp.get pid).1).cache.length ≤ _
              rw [get_length]
              exact h
          | pput pid pg => exact put_length h pid pg
    exact this BufferPool.empty (by simp [BufferPool.empty, Config.CACHE_SIZE])
  · intro ops
    have : ∀ s : EngineState, s.pool.cache.length ≤ Config.CACHE_SIZE →
        (ops.foldl applyOp s).pool.cache.length ≤ Config.CACHE_SIZE := by
      induction ops with
      | nil => exact fun s h => h
      | cons op rest ih => exact fun s h => ih _ (applyOp_pool_length h op)
    exact this EngineState.init (by simp [EngineState.init, BufferPool.empty, Config.CACHE_SIZE])
  · intro bp pid pg h
    have hne : bp.cache ≠ [] := by
      intro hc
      rw [hc] at h
      simp [Config.CACHE_SIZE] at h
    have h1 := evictLRU_length hne
    constructor
    · omega
    · exact put_length (by omega) pid pg

theorem cache_bound_witness :
    fullPool.cache.length = Config.CACHE_SIZE ∧
    fullPool.evictLRU.cache.length = Config.CACHE_SIZE - 1 ∧
    (fullPool.put 200 (Page.make 200)).cache.length ≤ Config.CACHE_SIZE :=
  ⟨by decide, (cache_bound.2.2 fullPool 200 (Page.make 200) (by decide)).1,
    (cache_bound.2.2 fullPool 200 (Page.make 200) (by decide)).2⟩

theorem mapInsert_le (c : List (Nat × CacheEntry)) (pid : Nat) (e : CacheEntry) :
    ((mapInsert c pid e : List (Nat × CacheEntry)) : Multiset (Nat × CacheEntry)) ≤
      (pid, e) ::ₘ (c : Multiset (Nat × CacheEntry)) := by
  induction c with
  | nil => simp [mapInsert]
  | cons y rest ih =>
      rw [show (y :: rest) = ((y.1, y.2) :: rest) from rfl]
      simp only [mapInsert]
      by_cases hp : y.1 = pid
      · rw [if_pos hp]
        rw [← Multiset.cons_coe, ← Multiset.cons_coe]
        exact Multiset.cons_le_cons _ (Multiset.le_cons_self _ _)
      · rw [if_neg hp]
        rw [← Multiset.cons_coe, ← Multiset.cons_coe, Multiset.cons_swap]
        exact Multiset.cons_le_cons _ ih

theorem mapErase_le (c : List (Nat × CacheEntry)) (pid : Nat) :
    ((mapErase c pid : List (Nat × CacheEntry)) : Multiset (Nat × CacheEntry)) ≤
      (c : Multiset (Nat × CacheEntry)) := by
  induction c with
  | nil => simp [mapErase]
  | cons y rest ih =>
      rw [show (y :: rest) = ((y.1, y.2) :: rest) from rfl]
      simp only [mapErase]
      by_cases hp : y.1 = pid
      · rw [if_pos hp, ← Multiset.cons_coe]
        exact Multiset.le_cons_self _ _
      · rw [if_neg hp, ← Multiset.cons_coe, ← Multiset.cons_coe]
        exact Multiset.cons_le_cons _ ih

theorem poolTimes_le_of_le {c d : List (Nat × CacheEntry)}
    (h : (c : Multiset (Nat × CacheEntry)) ≤ (d : Multiset (Nat × CacheEntry))) :
    ((c.map (fun x => x.2.accessTime) : List Nat) : Multiset Nat) ≤
      ((d.map (fun x => x.2.accessTime) : List Nat) : Multiset Nat) :=
  Multiset.map_le_map h

theorem poolTimesOK_get (bp : BufferPool) (pid : Nat) (h : PoolTimesOK bp) :
    PoolTimesOK (bp.get pid).1 := by
  obtain ⟨hb, hn⟩ := h
  simp only [BufferPool.get]
  cases hf : mapFind bp.cache pid with
  | none => exact ⟨hb, hn⟩
  | some e =>
      simp only []
      constructor
      · intro x hx
        rcases mapInsert_mem hx with hx | hx
        · rw [hx]
        · exact Nat.le_succ_of_le (hb x hx)
      · have h1 : ((mapInsert bp.cache pid ⟨e.page, bp.currentTime + 1⟩).map
            (fun x => x.2.accessTime) : Multiset Nat) ≤
            (bp.currentTime + 1) ::ₘ ((bp.cache.map (fun x => x.2.accessTime) : List Nat) :
              Multiset Nat) := by
          have := poolTimes_le_of_le (mapInsert_le bp.cache pid ⟨e.page, bp.currentTime + 1⟩)
          simpa using this
        have h2 : Multiset.Nodup ((bp.currentTime + 1) ::ₘ
            ((bp.cache.map (fun x => x.2.accessTime) : List Nat) : Multiset Nat)) := by
          rw [Multiset.nodup_cons]
          constructor
          · intro hmem
            rw [Multiset.mem_coe, List.mem_map] at hmem
            obtain ⟨x, hx, hxe⟩ := hmem
            have := hb x hx
            omega
          · rw [Multiset.coe_nodup]
            exact hn
        rw [← Multiset.coe_nodup]
        exact Multiset.nodup_of_le h1 h2

theorem evictLRU_currentTime (bp : BufferPool) : bp.evictLRU.currentTime = bp.currentTime := by
  simp only [BufferPool.evictLRU]
  cases oldestEntry bp.cache with
  | none => rfl
  | some x => cases x; rfl

theorem evictLRU_cache_le (bp : BufferPool) :
    ((bp.evictLRU.cache : List (Nat × CacheEntry)) : Multiset (Nat × CacheEntry)) ≤
      (bp.cache : Multiset (Nat × CacheEntry)) := by
  simp only [BufferPool.evictLRU]
  cases oldestEntry bp.cache with
  | none => exact le_refl _
  | some x =>
      cases x
      exact mapErase_le _ _

theorem mapErase_subset (c : List (Nat × CacheEntry)) (pid : Nat) :
    ∀ x ∈ mapErase c pid, x ∈ c := by
  induction c with
  | nil => simp [mapErase]
  | cons y rest ih =>
      intro x hx
      rw [show (y :: rest) = ((y.1, y.2) :: rest) from rfl] at hx
      simp only [mapErase] at hx
      by_cases hp : y.1 = pid
      · rw [if_pos hp] at hx
        exact List.mem_cons_of_mem _ hx
      · rw [if_neg hp] at hx
        rcases List.mem_cons.mp hx with hx | hx
        · rw [hx]
          exact List.mem_cons_self _ _
        · exact List.mem_cons_of_mem _ (ih x hx)

theorem evictLRU_cache_subset (bp : BufferPool) :
    ∀ x ∈ bp.evictLRU.cache, x ∈ bp.cache := by
  simp only [BufferPool.evictLRU]
  cases oldestEntry bp.cache with
  | none => exact fun x hx => hx
  | some y =>
      cases y
      exact mapErase_subset _ _

theorem poolTimesOK_put (bp : BufferPool) (pid : Nat) (pg : Page) (h : PoolTimesOK bp) :
    PoolTimesOK (bp.put pid pg) := by
  obtain ⟨hb, hn⟩ := h
  have step : ∀ bp1 : BufferPool, (∀ x ∈ bp1.cache, x.2.accessTime ≤ bp1.currentTime) →
      (bp1.cache.map (fun x => x.2.accessTime)).Nodup →
      PoolTimesOK ⟨mapInsert bp1.cache pid ⟨pg, bp1.currentTime + 1⟩, bp1.currentTime + 1⟩ := by
    intro bp1 hb1 hn1
    constructor
    · intro x hx
      rcases mapInsert_mem hx with hx | hx
      · rw [hx]
      · exact Nat.le_succ_of_le (hb1 x hx)
    · have h1 : ((mapInsert bp1.cache pid ⟨pg, bp1.currentTime + 1⟩).map
          (fun x => x.2.accessTime) : Multiset Nat) ≤
          (bp1.currentTime + 1) ::ₘ ((bp1.cache.map (fun x => x.2.accessTime) : List Nat) :
            Multiset Nat) := by
        have := poolTimes_le_of_le (mapInsert_le bp1.cache pid ⟨pg, bp1.currentTime + 1⟩)
        simpa using this
      have h2 : Multiset.Nodup ((bp1.currentTime + 1) ::ₘ
          ((bp1.cache.map (fun x => x.2.accessTime) : List Nat) : Multiset Nat)) := by
        rw [Multiset.nodup_cons]
        constructor
        · intro hmem
          rw [Multiset.mem_coe, List.mem_map] at hmem
          obtain ⟨x, hx, hxe⟩ := hmem
          have := hb1 x hx
          omega
        · rw [Multiset.coe_nodup]
          exact hn1
      rw [← Multiset.coe_nodup]
      exact Multiset.nodup_of_le h1 h2
  simp only [BufferPool.put]
  by_cases hfull : Config.CACHE_SIZE ≤ bp.cache.length
  · rw [if_pos hfull]
    refine step bp.evictLRU ?_ ?_
    · intro x hx
      rw [evictLRU_currentTime]
      exact hb x (evictLRU_cache_subset bp x hx)
    · rw [← Multiset.coe_nodup]
      refine Multiset.nodup_of_le (poolTimes_le_of_le (evictLRU_cache_le bp)) ?_
      rw [Multiset.coe_nodup]
      exact hn
  · rw [if_neg hfull]
    exact step bp hb hn

/-- C4: the buffer pool's logical clock strictly increases on every cache
hit and on every put; consequently in every pool reachable from the empty
pool the access times are bounded by the clock and pairwise distinct; and
whenever eviction occurs on such a pool it removes exactly the entry whose
access time is the (unique) smallest — the least-recently touched page. -/
theorem lru_correctness :
    (∀ (bp : BufferPool) (pid : Nat), (bp.get pid).2 ≠ none →
        (bp.get pid).1.currentTime = bp.currentTime + 1) ∧
    (∀ (bp : BufferPool) (pid : Nat) (pg : Page),
        (bp.put pid pg).currentTime = bp.currentTime + 1) ∧
    (∀ ops : List PoolOp, PoolTimesOK (runPoolOps ops)) ∧
    (∀ (ops : List PoolOp) (x : Nat × CacheEntry),
        oldestEntry (runPoolOps ops).cache = some x →
        x ∈ (runPoolOps ops).cache ∧
        (∀ y ∈ (runPoolOps ops).cache, y ≠ x →
            x.2.accessTime < y.2.accessTime) ∧
        (runPoolOps ops).evictLRU.cache = mapErase (runPoolOps ops).cache x.1) := by
  have hreach : ∀ ops : List PoolOp, PoolTimesOK (runPoolOps ops) := by
    intro ops
    have : ∀ bp : BufferPool, PoolTimesOK bp → PoolTimesOK (ops.foldl applyPoolOp bp) := by
      induction ops with
      | nil => exact fun bp h => h
      | cons op rest ih =>
          intro bp h
          refine ih _ ?_
          cases op with
          | pget pid => exact poolTimesOK_get bp pid h
          | pput pid pg => exact poolTimesOK_put bp pid pg h
    exact this BufferPool.empty ⟨by simp [BufferPool.empty], by simp [BufferPool.empty]⟩
  refine ⟨?_, ?_, hreach, ?_⟩
  · intro bp pid h
    simp only [BufferPool.get] at h ⊢
    cases hf : mapFind bp.cache pid with
    | none =>
        rw [hf] at h
        simp at h
    | some e => rfl
  · intro bp pid pg
    simp only [BufferPool.put]
    by_cases hfull : Config.CACHE_SIZE ≤ bp.cache.length
    · rw [if_pos hfull, evictLRU_currentTime]
    · rw [if_neg hfull]
  · intro ops x hx
    obtain ⟨hb, hn⟩ := hreach ops
    obtain ⟨hmem, hmin⟩ := oldestEntry_spec hx
    refine ⟨hmem, ?_, ?_⟩
    · intro y hy hne
      have hle := hmin y hy
      rcases Nat.lt_or_ge x.2.accessTime y.2.accessTime with hlt | hge
      · exact hlt
      · exfalso
        have heq : x.2.accessTime = y.2.accessTime := by omega
        have := List.inj_on_of_nodup_map hn hmem hy heq
        exact hne (this.symm)
    · simp only [BufferPool.evictLRU, hx]

theorem lru_correctness_witness :
    ((runPoolOps [PoolOp.pput 1 (Page.make 1), PoolOp.pput 2 (Page.make 2)]).get 1).1.currentTime
      = (runPoolOps [PoolOp.pput 1 (Page.make 1), PoolOp.pput 2 (Page.make 2)]).currentTime
        + 1 ∧
    (runPoolOps [PoolOp.pput 1 (Page.make 1), PoolOp.pput 2 (Page.make 2)]).evictLRU.cache
      = mapErase (runPoolOps [PoolOp.pput 1 (Page.make 1),
          PoolOp.pput 2 (Page.make 2)]).cache 1 :=
  ⟨lru_correctness.1 _ 1 (by decide),
   (lru_correctness.2.2.2 [PoolOp.pput 1 (Page.make 1), PoolOp.pput 2 (Page.make 2)]
      (1, ⟨Page.make 1, 1⟩) (by decide)).2.2⟩

theorem poolSetPage_mem {bp : BufferPool} {pid : Nat} {pg : Page} {x : Nat × CacheEntry}
    (h : x ∈ (poolSetPage bp pid pg).cache) :
    (x ∈ bp.cache ∧ x.1 ≠ pid) ∨ (x.1 = pid ∧ x.2.page = pg) := by
  simp only [poolSetPage] at h
  obtain ⟨y, hy, hfy⟩ := List.mem_map.mp h
  by_cases hp : y.1 = pid
  · rw [if_pos hp] at hfy
    right
    rw [← hfy]
    exact ⟨hp, rfl⟩
  · rw [if_neg hp] at hfy
    left
    rw [← hfy]
    exact ⟨hy, hp⟩

theorem put_mem {bp : BufferPool} {pid : Nat} {pg : Page} {x : Nat × CacheEntry}
    (h : x ∈ (bp.put pid pg).cache) :
    (x.1 = pid ∧ x.2.page = pg) ∨ x ∈ bp.cache := by
  simp only [BufferPool.put] at h
  by_cases hfull : Config.CACHE_SIZE ≤ bp.cache.length
  · rw [if_pos hfull] at h
    rcases mapInsert_mem h with h | h
    · left
      rw [h]
      exact ⟨rfl, rfl⟩
    · exact Or.inr (evictLRU_cache_subset bp x h)
  · rw [if_neg hfull] at h
    rcases mapInsert_mem h with h | h
    · left
      rw [h]
      exact ⟨rfl, rfl⟩
    · exact Or.inr h

theorem poolGet_mem {bp : BufferPool} {pid : Nat} {x : Nat × CacheEntry}
    (h : x ∈ ((bp.get pid).1).cache) :
    x ∈ bp.cache ∨ ∃ e, (pid, e) ∈ bp.cache ∧ x.1 = pid ∧ x.2.page = e.page := by
  simp only [BufferPool.get] at h
  cases hf : mapFind bp.cache pid with
  | none =>
      rw [hf] at h
      exact Or.inl h
  | some e =>
      rw [hf] at h
      simp only [] at h
      rcases mapInsert_mem h with h | h
      · right
        exact ⟨e, mapFind_mem hf, by rw [h], by rw [h]⟩
      · exact Or.inl h

theorem fileRead_fileWrite (f : DataFile) (pid q : Nat) (r : Record) :
    fileRead (fileWrite f pid r) q = if pid = q then r else fileRead f q := by
  induction f with
  | nil => simp [fileRead, fileWrite]
  | cons y rest ih =>
      rw [show (y :: rest) = ((y.1, y.2) :: rest) from rfl]
      simp only [fileWrite]
      by_cases hp : y.1 = pid
      · rw [if_pos hp]
        simp only [fileRead]
        by_cases hq : pid = q
        · simp only [if_pos hq]
        · simp only [if_neg hq]
          rw [if_neg (show ¬(y.1 = q) from fun he => hq (hp ▸ he))]
      · rw [if_neg hp]
        simp only [fileRead]
        by_cases hq : y.1 = q
        · rw [if_pos hq]
          rw [if_neg (show ¬(pid = q) from fun he => hp (by rw [hq, ← he]))]
          rw [if_pos hq]
        · rw [if_neg hq, ih]
          by_cases hpq : pid = q
          · simp only [if_pos hpq]
          · simp only [if_neg hpq]
            rw [if_neg hq]

theorem loadPage_spec {s : EngineState} (hc : PoolCoherent s) (pid : Nat) :
    PoolCoherent (loadPage s pid).1 ∧
    (loadPage s pid).2.pageId = pid ∧
    (loadPage s pid).2.isDirty = false ∧
    (loadPage s pid).2.rcd = fileRead s.file pid ∧
    (loadPage s pid).1.file = s.file ∧
    (loadPage s pid).1.index = s.index ∧
    (loadPage s pid).1.journal = s.journal ∧
    (loadPage s pid).1.nextPageId = s.nextPageId := by
  simp only [loadPage, BufferPool.get]
  cases hf : mapFind s.pool.cache pid with
  | some e =>
      have he := hc (pid, e) (mapFind_mem hf)
      refine ⟨?_, by simpa using he.1, by simpa using he.2.1, by simpa using he.2.2,
        by simp, by simp, by simp, by simp⟩
      intro x hx
      simp only [] at hx
      rcases mapInsert_mem hx with hx | hx
      · rw [hx]
        exact ⟨he.1, he.2.1, he.2.2⟩
      · exact hc x hx
  | none =>
      refine ⟨?_, by simp, by simp, by simp, by simp, by simp, by simp, by simp⟩
      intro x hx
      simp only [] at hx
      rcases put_mem hx with ⟨h1, h2⟩ | hx
      · rw [h2, h1]
        exact ⟨rfl, rfl, rfl⟩
      · exact hc x hx

theorem flushPage_coherent {s : EngineState} {pg : Page}
    (h : ∀ x ∈ s.pool.cache, x.1 ≠ pg.pageId →
        x.2.page.pageId = x.1 ∧ x.2.page.isDirty = false ∧
        x.2.page.rcd = fileRead s.file x.1) :
    PoolCoherent (flushPage s pg).1 := by
  intro x hx
  simp only [flushPage] at hx ⊢
  rcases poolSetPage_mem hx with ⟨hmem, hne⟩ | ⟨hpid, hpg⟩
  · obtain ⟨h1, h2, h3⟩ := h x hmem hne
    refine ⟨h1, h2, ?_⟩
    rw [fileRead_fileWrite, if_neg (show ¬(pg.pageId = x.1) from fun he => hne he.symm), h3]
  · refine ⟨by rw [hpg, hpid], by rw [hpg], ?_⟩
    rw [hpg, hpid]
    show pg.rcd = fileRead (fileWrite s.file pg.pageId pg.rcd) pg.pageId
    rw [fileRead_fileWrite, if_pos rfl]

theorem getDirtyPages_of_coherent {s : EngineState} (hc : PoolCoherent s) :
    s.pool.getDirtyPages = [] := by
  simp only [BufferPool.getDirtyPages]
  rw [List.filter_eq_nil_iff.mpr, List.map_nil]
  intro x hx
  have := (hc x hx).2.1
  simp [this]

theorem applyOp_coherent {s : EngineState} (hc : PoolCoherent s) (op : EngineOp) :
    PoolCoherent (applyOp s op) := by
  cases op with
  | opInsert k v =>
      show PoolCoherent (engineInsert s k v).1
      by_cases h0 : searchNode k s.index = 0
      · simp only [engineInsert, h0, ne_eq, not_true_eq_false, if_false, flushPage,
          Page.make, Page.writeRecord]
        intro x hx
        simp only [] at hx
        rcases poolSetPage_mem hx with ⟨hmem, hne⟩ | ⟨hpid, hpg⟩
        · rcases put_mem hmem with ⟨h1, _⟩ | hmem2
          · exact absurd h1 hne
          · obtain ⟨h1, h2, h3⟩ := hc x hmem2
            refine ⟨h1, h2, ?_⟩
            rw [fileRead_fileWrite,
              if_neg (show ¬(s.nextPageId = x.1) from fun he => hne he.symm), h3]
        · refine ⟨by rw [hpg, hpid], by rw [hpg], ?_⟩
          rw [hpg, hpid]
          show Record.make k v s.nextPageId =
            fileRead (fileWrite s.file s.nextPageId (Record.make k v s.nextPageId)) s.nextPageId
          rw [fileRead_fileWrite, if_pos rfl]
      · rw [engineInsert_dup h0]
        exact hc
  | opGet k =>
      show PoolCoherent (engineGet s k).1
      by_cases h0 : searchNode k s.index = 0
      · rw [engineGet_miss h0]
        exact hc
      · simp only [engineGet, if_neg h0]
        cases hl : loadPage s (searchNode k s.index) with
        | mk s1 pg =>
            have hspec := loadPage_spec hc (searchNode k s.index)
            rw [hl] at hspec
            by_cases hd : pg.readRecord.isDeleted <;> simp only [hd, if_true, if_false] <;>
              exact hspec.1
  | opUpdate k v =>
      show PoolCoherent (engineUpdate s k v).1
      by_cases h0 : searchNode k s.index = 0
      · simp only [engineUpdate, if_pos h0]
        exact hc
      · simp only [engineUpdate, if_neg h0]
        have hc1 : PoolCoherent { s with journal := logOperation s.journal .UPDATE k v (searchNode k s.index) } := hc
        cases hl : loadPage { s with journal := logOperation s.journal .UPDATE k v (searchNode k s.index) } (searchNode k s.index) with
        | mk s2 pg =>
            have hspec := loadPage_spec hc1 (searchNode k s.index)
            rw [hl] at hspec
            obtain ⟨hcoh2, hpgid, hpgd, hpgr, hfile2, _, _, _⟩ := hspec
            by_cases hd : pg.readRecord.isDeleted
            · simp only [hd, if_true]
              exact hcoh2
            · simp only [hd, if_false, Bool.false_eq_true]
              refine flushPage_coherent ?_
              intro x hx hne
              simp only [Page.writeRecord] at hne
              rw [hpgid] at hne
              rcases poolSetPage_mem hx with ⟨hmem, _⟩ | ⟨hpid, _⟩
              · exact hcoh2 x hmem
              · exact absurd hpid hne
  | opRemove k =>
      show PoolCoherent (engineRemove s k).1
      by_cases h0 : searchNode k s.index = 0
      · simp only [engineRemove, if_pos h0]
        exact hc
      · simp only [engineRemove, if_neg h0]
        have hc1 : PoolCoherent { s with journal := logOperation s.journal .DELETE k [] (searchNode k s.index) } := hc
        cases hl : loadPage { s with journal := logOperation s.journal .DELETE k [] (searchNode k s.index) } (searchNode k s.index) with
        | mk s2 pg =>
            have hspec := loadPage_spec hc1 (searchNode k s.index)
            rw [hl] at hspec
            obtain ⟨hcoh2, hpgid, hpgd, hpgr, hfile2, _, _, _⟩ := hspec
            refine flushPage_coherent ?_
            intro x hx hne
            simp only [Page.writeRecord] at hne
            rw [hpgid] at hne
            rcases poolSetPage_mem hx with ⟨hmem, _⟩ | ⟨hpid, _⟩
            · exact hcoh2 x hmem
            · exact absurd hpid hne
  | opFlushAll =>
      show PoolCoherent (engineFlushAll s)
      simp only [engineFlushAll]
      rw [getDirtyPages_of_coherent hc]
      show PoolCoherent { flushPages s [] with journal := [] }
      exact hc

/-- C8: in every engine state reachable from a fresh engine between
completed public operations (insert, get, update, remove, flush_all), every
page held in the buffer pool is clean (is_dirty = false) and its record
image equals the data file's content for that page — every mutating
operation flushes the written page before returning — so the list of dirty
pages is empty and LRU eviction, which never writes to disk, cannot discard
a page whose contents differ from the data file. -/
theorem clean_pool_invariant :
    ∀ ops : List EngineOp, PoolCoherent (runOps ops) ∧
      (runOps ops).pool.getDirtyPages = [] := by
  intro ops
  have h : ∀ s : EngineState, PoolCoherent s → PoolCoherent (ops.foldl applyOp s) := by
    induction ops with
    | nil => exact fun s h => h
    | cons op rest ih => exact fun s h => ih _ (applyOp_coherent h op)
  have hinit : PoolCoherent EngineState.init := by
    intro x hx
    simp [EngineState.init, BufferPool.empty] at hx
  have hc := h EngineState.init hinit
  exact ⟨hc, getDirtyPages_of_coherent hc⟩

/-- C1 (code-bug evidence): from a fresh engine, the 64 inserts of the
pairwise-distinct one-byte keys [1], ..., [64] (in ascending order, with
well-formed one-byte values) all return true, yet the subsequent
get([33]) returns (false, empty) and the index lookup for [33] returns the
not-found sentinel 0 — the claimed round-trip property fails as soon as the
first leaf split occurs, because the promoted separator makes the right half
of the split unreachable under the descent rule. -/
theorem roundtrip_fails_after_split :
    benchOK 64 = true ∧
    (engineGet (benchIns 64) [33]).2 = (false, []) ∧
    searchNode [33] (benchIns 64).index = 0 := by
  have hmiss : searchNode [33] benchSplitTree = 0 := by decide
  obtain ⟨hidx, hok⟩ := benchSplit64
  have h0 : searchNode [33] (benchIns 64).index = 0 := by rw [hidx]; exact hmiss
  exact ⟨hok, by rw [engineGet_miss h0], h0⟩


theorem findPosition_le (keys : List Key) (k : Key) : findPosition keys k ≤ keys.length := by
  induction keys with
  | nil => simp [findPosition]
  | cons x xs ih =>
      simp only [findPosition]
      by_cases h : keyLT x k
      · rw [if_pos h]
        simpa using ih
      · rw [if_neg h]
        simp

theorem listInsertAt_length {α : Type} (l : List α) (pos : Nat) (a : α) :
    (listInsertAt l pos a).length = l.length + 1 := by
  induction l generalizing pos with
  | nil => cases pos <;> rfl
  | cons x xs ih =>
      cases pos with
      | zero => rfl
      | succ n =>
          simp only [listInsertAt, List.length_cons]
          rw [ih]

theorem getD_set_lt {α : Type} (l : List α) (i : Nat) (a d : α) (h : i < l.length) :
    (l.set i a).getD i d = a := by
  induction l generalizing i with
  | nil => simp at h
  | cons x xs ih =>
      cases i with
      | zero => rfl
      | succ n =>
          simp only [List.set]
          show (xs.set n a).getD n d = a
          exact ih n (by simpa using h)

theorem getD_set_zero (l : List Nat) (i : Nat) : (l.set i 0).getD i 0 = 0 := by
  by_cases h : i < l.length
  · exact getD_set_lt l i 0 0 h
  · rw [List.set_eq_of_length_le (by omega)]
    rw [List.getD_eq_default]
    omega

theorem zip_insertAt (l1 : List Key) (l2 : List Nat) (pos : Nat) (a : Key) (b : Nat)
    (h : l1.length = l2.length) :
    (((listInsertAt l1 pos a).zip (listInsertAt l2 pos b) : List (Key × Nat)) :
        Multiset (Key × Nat)) =
      (a, b) ::ₘ ((l1.zip l2 : List (Key × Nat)) : Multiset (Key × Nat)) := by
  induction l1 generalizing l2 pos with
  | nil =>
      have : l2 = [] := by
        cases l2 with
        | nil => rfl
        | cons y ys => simp at h
      subst this
      cases pos <;> simp [listInsertAt]
  | cons x xs ih =>
      cases l2 with
      | nil => simp at h
      | cons y ys =>
          cases pos with
          | zero => simp [listInsertAt]
          | succ n =>
              simp only [listInsertAt, List.zip_cons_cons]
              rw [← Multiset.cons_coe, ← Multiset.cons_coe]
              rw [ih ys n (by simpa using h)]
              rw [Multiset.cons_swap]

theorem zip_set (keys : List Key) (values : List Nat) (pos : Nat) (k : Key) (v : Nat)
    (hlen : keys.length = values.length) (hpos : pos < keys.length)
    (hk : keys.getD pos [] = k) :
    ((keys.zip (values.set pos v) : List (Key × Nat)) : Multiset (Key × Nat)) +
      {(k, values.getD pos 0)} =
    ((keys.zip values : List (Key × Nat)) : Multiset (Key × Nat)) + {(k, v)} := by
  induction keys generalizing values pos with
  | nil => simp at hpos
  | cons x xs ih =>
      cases values with
      | nil => simp at hlen
      | cons y ys =>
          cases pos with
          | zero =>
              simp only [List.getD_cons_zero] at hk
              subst hk
              simp only [List.set_cons_zero, List.zip_cons_cons, List.getD_cons_zero]
              rw [← Multiset.cons_coe, ← Multiset.cons_coe]
              rw [add_comm _ ({(x, y)} : Multiset (Key × Nat)), Multiset.singleton_add,
                add_comm _ ({(x, v)} : Multiset (Key × Nat)), Multiset.singleton_add,
                Multiset.cons_swap]
          | succ n =>
              simp only [List.getD_cons_succ] at hk
              simp only [List.set_cons_succ, List.zip_cons_cons, List.getD_cons_succ]
              rw [← Multiset.cons_coe, ← Multiset.cons_coe,
                Multiset.cons_add, Multiset.cons_add,
                ih ys n (by simpa using hlen) (by simpa using hpos) hk]

theorem zip_take_drop (l1 : List Key) (l2 : List Nat) (m : Nat)
    (h : l1.length = l2.length) :
    (l1.take m).zip (l2.take m) ++ (l1.drop m).zip (l2.drop m) = l1.zip l2 := by
  induction l1 generalizing l2 m with
  | nil =>
      have : l2 = [] := by
        cases l2 with
        | nil => rfl
        | cons y ys => simp at h
      subst this
      simp
  | cons x xs ih =>
      cases l2 with
      | nil => simp at h
      | cons y ys =>
          cases m with
          | zero => simp
          | succ n =>
              simp only [List.take_succ_cons, List.drop_succ_cons, List.zip_cons_cons,
                List.cons_append]
              rw [ih ys n (by simpa using h)]

theorem zip_getD_mem (keys : List Key) (values : List Nat) (pos : Nat) (k : Key)
    (hlen : keys.length = values.length) (hpos : pos < keys.length)
    (hk : keys.getD pos [] = k) :
    (k, values.getD pos 0) ∈ keys.zip values := by
  induction keys generalizing values pos with
  | nil => simp at hpos
  | cons x xs ih =>
      cases values with
      | nil => simp at hlen
      | cons y ys =>
          cases pos with
          | zero =>
              simp only [List.getD_cons_zero] at hk ⊢
              subst hk
              simp
          | succ n =>
              simp only [List.getD_cons_succ] at hk ⊢
              simp only [List.zip_cons_cons]
              exact List.mem_cons_of_mem _
                (ih ys n (by simpa using hlen) (by simpa using hpos) hk)

theorem nlLength_nlInsertAt : ∀ (cs : NodeList) (i : Nat) (c : BPlusNode),
    nlLength (nlInsertAt cs i c) = nlLength cs + 1
  | .nil, 0, _ => rfl
  | .nil, _ + 1, _ => rfl
  | .cons _ _, 0, _ => rfl
  | .cons c0 rest, n + 1, c => by
      simp only [nlInsertAt, nlLength]
      rw [nlLength_nlInsertAt rest n c]

theorem nlLength_nlTake : ∀ (n : Nat) (cs : NodeList),
    nlLength (nlTake n cs) = min n (nlLength cs)
  | 0, _ => by simp [nlTake, nlLength]
  | _ + 1, .nil => by simp [nlTake, nlLength]
  | n + 1, .cons c rest => by
      simp only [nlTake, nlLength]
      rw [nlLength_nlTake n rest]
      omega

theorem nlLength_nlDrop : ∀ (n : Nat) (cs : NodeList),
    nlLength (nlDrop n cs) = nlLength cs - n
  | 0, _ => by simp [nlDrop]
  | _ + 1, .nil => by simp [nlDrop, nlLength]
  | n + 1, .cons c rest => by
      simp only [nlDrop, nlLength]
      rw [nlLength_nlDrop n rest]
      omega

theorem childWF_nlTake : ∀ {cs : NodeList}, childWF cs → ∀ (n : Nat), childWF (nlTake n cs)
  | .nil, _, n => by cases n <;> simp [nlTake, childWF]
  | .cons c rest, h, 0 => by simp [nlTake, childWF]
  | .cons c rest, h, n + 1 => by
      simp only [childWF] at h
      simp only [nlTake, childWF]
      exact ⟨h.1, childWF_nlTake h.2 n⟩

theorem childWF_nlDrop : ∀ {cs : NodeList}, childWF cs → ∀ (n : Nat), childWF (nlDrop n cs)
  | .nil, h, n => by cases n <;> simp [nlDrop, childWF]
  | .cons c rest, h, 0 => by simpa [nlDrop] using h
  | .cons c rest, h, n + 1 => by
      simp only [childWF] at h
      simp only [nlDrop]
      exact childWF_nlDrop h.2 n

theorem childWF_nlInsertAt : ∀ {cs : NodeList}, childWF cs → ∀ {c : BPlusNode},
    nodeWF c → ∀ (i : Nat), childWF (nlInsertAt cs i c)
  | .nil, _, c, hcwf, 0 => by
      simp only [nlInsertAt, childWF]
      exact ⟨hcwf, trivial⟩
  | .nil, _, c, hcwf, _ + 1 => by
      simp only [nlInsertAt, childWF]
      exact ⟨hcwf, trivial⟩
  | .cons c0 rest, h, c, hcwf, 0 => by
      simp only [childWF] at h
      simp only [nlInsertAt, childWF]
      exact ⟨hcwf, h⟩
  | .cons c0 rest, h, c, hcwf, n + 1 => by
      simp only [childWF] at h
      simp only [nlInsertAt, childWF]
      exact ⟨h.1, childWF_nlInsertAt h.2 hcwf n⟩

theorem childSlots_nlTake_nlDrop : ∀ (cs : NodeList) (n : Nat),
    childSlots (nlTake n cs) ++ childSlots (nlDrop n cs) = childSlots cs
  | .nil, n => by cases n <;> simp [nlTake, nlDrop, childSlots]
  | .cons c rest, 0 => by simp [nlTake, nlDrop, childSlots]
  | .cons c rest, m + 1 => by
      simp only [nlTake, nlDrop, childSlots, List.append_assoc]
      rw [childSlots_nlTake_nlDrop rest m]

theorem childSlots_nlInsertAt : ∀ (cs : NodeList) (i : Nat) (c : BPlusNode),
    ((childSlots (nlInsertAt cs i c) : List (Key × Nat)) : Multiset (Key × Nat)) =
      ((childSlots cs : List (Key × Nat)) : Multiset (Key × Nat)) +
        ((nodeSlots c : List (Key × Nat)) : Multiset (Key × Nat))
  | .nil, 0, c => by simp [nlInsertAt, childSlots]
  | .nil, _ + 1, c => by simp [nlInsertAt, childSlots]
  | .cons c0 rest, 0, c => by
      simp only [nlInsertAt, childSlots]
      rw [← Multiset.coe_add, ← Multiset.coe_add]
      abel
  | .cons c0 rest, n + 1, c => by
      simp only [nlInsertAt, childSlots]
      rw [← Multiset.coe_add, ← Multiset.coe_add, childSlots_nlInsertAt rest n c]
      abel


mutual
theorem insNode_wf (order : Nat) (ho : 4 ≤ order) (k : Key) (v : Nat) :
    ∀ t : BPlusNode, nodeWF t →
      nodeWF (insNode order k v t).1 ∧
      (∀ nn pk, (insNode order k v t).2 = some (nn, pk) → nodeWF nn)
  | .leaf keys values, hwf => by
      simp only [nodeWF] at hwf
      simp only [insNode]
      by_cases hcond : findPosition keys k < keys.length ∧
          keys.getD (findPosition keys k) [] = k
      · rw [if_pos hcond]
        refine ⟨?_, ?_⟩
        · simp only [nodeWF, List.length_set]
          exact hwf
        · intro nn pk h
          simp at h
      · rw [if_neg hcond]
        by_cases hord : order ≤ (listInsertAt keys (findPosition keys k) k).length
        · rw [if_pos hord]
          simp only [leafSplit]
          refine ⟨?_, ?_⟩
          · simp only [nodeWF, List.length_take, listInsertAt_length, hwf]
          · intro nn pk h
            simp only [Option.some.injEq, Prod.mk.injEq] at h
            rw [← h.1]
            simp only [nodeWF, List.length_drop, listInsertAt_length, hwf]
        · rw [if_neg hord]
          refine ⟨?_, ?_⟩
          · simp only [nodeWF, listInsertAt_length, hwf]
          · intro nn pk h
            simp at h
  | .internal keys children, hwf => by
      simp only [nodeWF] at hwf
      obtain ⟨hk1, hlen, hcw⟩ := hwf
      simp only [insNode]
      rcases hic : insChild order k v children (childIndex keys k) with ⟨children', res⟩
      obtain ⟨hcw', hlen', hres⟩ := insChild_wf order ho k v children (childIndex keys k) hcw
      rw [hic] at hcw' hlen' hres
      simp only [] at hcw' hlen' hres
      cases res with
      | none =>
          simp only []
          refine ⟨?_, ?_⟩
          · simp only [nodeWF]
            refine ⟨hk1, by omega, hcw'⟩
          · intro nn pk h
            simp at h
      | some pr =>
          rcases pr with ⟨newChild, promoted⟩
          simp only []
          have hnewwf : nodeWF newChild := hres newChild promoted rfl
          have hcw'' : childWF (nlInsertAt children' (childIndex keys k + 1) newChild) :=
            childWF_nlInsertAt hcw' hnewwf _
          have hlen'' : nlLength (nlInsertAt children' (childIndex keys k + 1) newChild) =
              nlLength children + 1 := by
            rw [nlLength_nlInsertAt, hlen']
          by_cases hord : order ≤ (listInsertAt keys (childIndex keys k + 1) promoted).length
          · rw [if_pos hord]
            simp only [internalSplit]
            have hL : (listInsertAt keys (childIndex keys k + 1) promoted).length =
                keys.length + 1 := listInsertAt_length _ _ _
            refine ⟨?_, ?_⟩
            · simp only [nodeWF, List.length_dropLast, List.length_take, hL,
                nlLength_nlTake, hlen'']
              refine ⟨by omega, by omega, childWF_nlTake hcw'' _⟩
            · intro nn pk h
              simp only [Option.some.injEq, Prod.mk.injEq] at h
              rw [← h.1]
              simp only [nodeWF, List.length_drop, hL, nlLength_nlDrop, hlen'']
              refine ⟨by omega, by omega, childWF_nlDrop hcw'' _⟩
          · rw [if_neg hord]
            refine ⟨?_, ?_⟩
            · simp only [nodeWF, listInsertAt_length, hlen'']
              refine ⟨by omega, by omega, hcw''⟩
            · intro nn pk h
              simp at h
theorem insChild_wf (order : Nat) (ho : 4 ≤ order) (k : Key) (v : Nat) :
    ∀ (cs : NodeList) (i : Nat), childWF cs →
      childWF (insChild order k v cs i).1 ∧
      nlLength (insChild order k v cs i).1 = nlLength cs ∧
      (∀ nn pk, (insChild order k v cs i).2 = some (nn, pk) → nodeWF nn)
  | .nil, i, h => by
      simp only [insChild, childWF, nlLength]
      exact ⟨trivial, by trivial, by intro nn pk h0; simp at h0⟩
  | .cons c rest, 0, h => by
      simp only [childWF] at h
      obtain ⟨hnode, hres⟩ := insNode_wf order ho k v c h.1
      simp only [insChild]
      rcases hin : insNode order k v c with ⟨c2, res⟩
      rw [hin] at hnode hres
      simp only [] at hnode hres
      simp only [childWF, nlLength]
      exact ⟨⟨hnode, h.2⟩, by trivial, hres⟩
  | .cons c rest, n + 1, h => by
      simp only [childWF] at h
      obtain ⟨hcw, hlen, hres⟩ := insChild_wf order ho k v rest n h.2
      simp only [insChild]
      rcases hic : insChild order k v rest n with ⟨rest2, res⟩
      rw [hic] at hcw hlen hres
      simp only [] at hcw hlen hres
      simp only [childWF, nlLength]
      exact ⟨⟨h.1, hcw⟩, by simp [hlen], hres⟩
end

theorem treeInsert_wf {order : Nat} (ho : 4 ≤ order) {t : BPlusNode} (hwf : nodeWF t)
    (k : Key) (v : Nat) : nodeWF (treeInsert order t k v) := by
  obtain ⟨h1, h2⟩ := insNode_wf order ho k v t hwf
  simp only [treeInsert]
  rcases hin : insNode order k v t with ⟨t2, res⟩
  rw [hin] at h1 h2
  simp only [] at h1 h2
  cases res with
  | none => exact h1
  | some pr =>
      rcases pr with ⟨nn, pk⟩
      simp only [nodeWF, childWF, nlLength, List.length_cons, List.length_nil]
      exact ⟨by omega, by omega, h1, h2 nn pk rfl, trivial⟩


theorem childIndex_lt {keys : List Key} (h : 1 ≤ keys.length) (k : Key) :
    childIndex keys k < keys.length := by
  simp only [childIndex]
  have hle := findPosition_le keys k
  by_cases h1 : findPosition keys k = keys.length
  · rw [if_pos h1]
    omega
  · rw [if_neg h1]
    by_cases h2 : 0 < findPosition keys k ∧ keyLT k (keys.getD (findPosition keys k) [])
    · rw [if_pos h2]
      omega
    · rw [if_neg h2]
      omega

mutual
theorem insNode_slots (order : Nat) (k : Key) (v : Nat) :
    ∀ t : BPlusNode, nodeWF t →
      (∃ w, (k, w) ∈ nodeSlots t ∧
          insResultSlots (insNode order k v t) + {(k, w)} =
            slotsM (nodeSlots t) + {(k, v)}) ∨
      insResultSlots (insNode order k v t) = slotsM (nodeSlots t) + {(k, v)}
  | .leaf keys values, hwf => by
      simp only [nodeWF] at hwf
      simp only [insNode, nodeSlots]
      by_cases hcond : findPosition keys k < keys.length ∧
          keys.getD (findPosition keys k) [] = k
      · rw [if_pos hcond]
        left
        refine ⟨values.getD (findPosition keys k) 0,
          zip_getD_mem keys values _ k hwf hcond.1 hcond.2, ?_⟩
        simp only [insResultSlots, nodeSlots, slotsM]
        rw [add_zero]
        exact zip_set keys values _ k v hwf hcond.1 hcond.2
      · rw [if_neg hcond]
        right
        by_cases hord : order ≤ (listInsertAt keys (findPosition keys k) k).length
        · rw [if_pos hord]
          simp only [leafSplit, insResultSlots, nodeSlots, slotsM]
          have hlen' : (listInsertAt keys (findPosition keys k) k).length =
              (listInsertAt values (findPosition keys k) v).length := by
            rw [listInsertAt_length, listInsertAt_length, hwf]
          rw [Multiset.coe_add, zip_take_drop _ _ _ hlen',
            zip_insertAt keys values _ k v hwf, ← Multiset.singleton_add, add_comm]
        · rw [if_neg hord]
          simp only [insResultSlots, nodeSlots, slotsM]
          rw [add_zero, zip_insertAt keys values _ k v hwf, ← Multiset.singleton_add,
            add_comm]
  | .internal keys children, hwf => by
      simp only [nodeWF] at hwf
      obtain ⟨hk1, hlen, hcw⟩ := hwf
      have hpos : childIndex keys k < nlLength children := by
        have := childIndex_lt hk1 k
        omega
      simp only [insNode, nodeSlots]
      rcases hic : insChild order k v children (childIndex keys k) with ⟨children', res⟩
      have hIH := insChild_slots order k v children (childIndex keys k) hpos hcw
      rw [hic] at hIH
      cases res with
      | none =>
          simp only [insResultSlots, insChildResultSlots, nodeSlots, slotsM, add_zero]
            at hIH ⊢
          exact hIH
      | some pr =>
          rcases pr with ⟨newChild, promoted⟩
          simp only []
          by_cases hord : order ≤ (listInsertAt keys (childIndex keys k + 1) promoted).length
          · rw [if_pos hord]
            simp only [internalSplit, insResultSlots, insChildResultSlots, nodeSlots, slotsM]
              at hIH ⊢
            have hkey : ((childSlots (nlTake
                  ((listInsertAt keys (childIndex keys k + 1) promoted).length / 2 + 1)
                  (nlInsertAt children' (childIndex keys k + 1) newChild)) :
                    List (Key × Nat)) : Multiset (Key × Nat)) +
                ((childSlots (nlDrop
                  ((listInsertAt keys (childIndex keys k + 1) promoted).length / 2 + 1)
                  (nlInsertAt children' (childIndex keys k + 1) newChild)) :
                    List (Key × Nat)) : Multiset (Key × Nat)) =
                ((childSlots children' : List (Key × Nat)) : Multiset (Key × Nat)) +
                ((nodeSlots newChild : List (Key × Nat)) : Multiset (Key × Nat)) := by
              rw [Multiset.coe_add, childSlots_nlTake_nlDrop]
              exact childSlots_nlInsertAt children' (childIndex keys k + 1) newChild
            rw [hkey]
            exact hIH
          · rw [if_neg hord]
            simp only [insResultSlots, insChildResultSlots, nodeSlots, slotsM, add_zero]
              at hIH ⊢
            rw [childSlots_nlInsertAt children' (childIndex keys k + 1) newChild]
            exact hIH
theorem insChild_slots (order : Nat) (k : Key) (v : Nat) :
    ∀ (cs : NodeList) (i : Nat), i < nlLength cs → childWF cs →
      (∃ w, (k, w) ∈ childSlots cs ∧
          insChildResultSlots (insChild order k v cs i) + {(k, w)} =
            slotsM (childSlots cs) + {(k, v)}) ∨
      insChildResultSlots (insChild order k v cs i) = slotsM (childSlots cs) + {(k, v)}
  | .nil, i, hi, _ => by
      simp [nlLength] at hi
  | .cons c rest, 0, hi, h => by
      simp only [childWF] at h
      simp only [insChild, childSlots]
      rcases hin : insNode order k v c with ⟨c2, res⟩
      have hIH := insNode_slots order k v c h.1
      rw [hin] at hIH
      simp only [insResultSlots, insChildResultSlots, childSlots, slotsM] at hIH ⊢
      rcases hIH with ⟨w, hwmem, hweq⟩ | heq
      · left
        refine ⟨w, List.mem_append_left _ hwmem, ?_⟩
        rw [← Multiset.coe_add, ← Multiset.coe_add]
        cases res with
        | none =>
            simp only [add_zero] at hweq ⊢
            calc (((nodeSlots c2 : List (Key × Nat)) : Multiset (Key × Nat)) +
                  ((childSlots rest : List (Key × Nat)) : Multiset (Key × Nat))) + {(k, w)}
                = (((nodeSlots c2 : List (Key × Nat)) : Multiset (Key × Nat)) + {(k, w)}) +
                  ((childSlots rest : List (Key × Nat)) : Multiset (Key × Nat)) := by abel
              _ = (((nodeSlots c : List (Key × Nat)) : Multiset (Key × Nat)) + {(k, v)}) +
                  ((childSlots rest : List (Key × Nat)) : Multiset (Key × Nat)) := by
                    rw [hweq]
              _ = (((nodeSlots c : List (Key × Nat)) : Multiset (Key × Nat)) +
                  ((childSlots rest : List (Key × Nat)) : Multiset (Key × Nat))) + {(k, v)} := by
                    abel
        | some pr =>
            rcases pr with ⟨nn, pk⟩
            simp only [] at hweq ⊢
            calc (((nodeSlots c2 : List (Key × Nat)) : Multiset (Key × Nat)) +
                  ((childSlots rest : List (Key × Nat)) : Multiset (Key × Nat))) +
                  ((nodeSlots nn : List (Key × Nat)) : Multiset (Key × Nat)) + {(k, w)}
                = ((((nodeSlots c2 : List (Key × Nat)) : Multiset (Key × Nat)) +
                  ((nodeSlots nn : List (Key × Nat)) : Multiset (Key × Nat))) + {(k, w)}) +
                  ((childSlots rest : List (Key × Nat)) : Multiset (Key × Nat)) := by abel
              _ = (((nodeSlots c : List (Key × Nat)) : Multiset (Key × Nat)) + {(k, v)}) +
                  ((childSlots rest : List (Key × Nat)) : Multiset (Key × Nat)) := by
                    rw [hweq]
              _ = (((nodeSlots c : List (Key × Nat)) : Multiset (Key × Nat)) +
                  ((childSlots rest : List (Key × Nat)) : Multiset (Key × Nat))) + {(k, v)} := by
                    abel
      · right
        rw [← Multiset.coe_add, ← Multiset.coe_add]
        cases res with
        | none =>
            simp only [add_zero] at heq ⊢
            calc ((nodeSlots c2 : List (Key × Nat)) : Multiset (Key × Nat)) +
                  ((childSlots rest : List (Key × Nat)) : Multiset (Key × Nat))
                = (((nodeSlots c : List (Key × Nat)) : Multiset (Key × Nat)) + {(k, v)}) +
                  ((childSlots rest : List (Key × Nat)) : Multiset (Key × Nat)) := by
                    rw [← heq]
              _ = (((nodeSlots c : List (Key × Nat)) : Multiset (Key × Nat)) +
                  ((childSlots rest : List (Key × Nat)) : Multiset (Key × Nat))) + {(k, v)} := by
                    abel
        | some pr =>
            rcases pr with ⟨nn, pk⟩
            simp only [] at heq ⊢
            calc (((nodeSlots c2 : List (Key × Nat)) : Multiset (Key × Nat)) +
                  ((childSlots rest : List (Key × Nat)) : Multiset (Key × Nat))) +
                  ((nodeSlots nn : List (Key × Nat)) : Multiset (Key × Nat))
                = ((((nodeSlots c2 : List (Key × Nat)) : Multiset (Key × Nat)) +
                  ((nodeSlots nn : List (Key × Nat)) : Multiset (Key × Nat)))) +
                  ((childSlots rest : List (Key × Nat)) : Multiset (Key × Nat)) := by abel
              _ = (((nodeSlots c : List (Key × Nat)) : Multiset (Key × Nat)) + {(k, v)}) +
                  ((childSlots rest : List (Key × Nat)) : Multiset (Key × Nat)) := by
                    rw [heq]
              _ = (((nodeSlots c : List (Key × Nat)) : Multiset (Key × Nat)) +
                  ((childSlots rest : List (Key × Nat)) : Multiset (Key × Nat))) + {(k, v)} := by
                    abel
  | .cons c rest, n + 1, hi, h => by
      simp only [childWF] at h
      simp only [nlLength] at hi
      simp only [insChild, childSlots]
      rcases hic : insChild order k v rest n with ⟨rest2, res⟩
      have hIH := insChild_slots order k v rest n (by omega) h.2
      rw [hic] at hIH
      simp only [insChildResultSlots, childSlots, slotsM] at hIH ⊢
      rcases hIH with ⟨w, hwmem, hweq⟩ | heq
      · left
        refine ⟨w, List.mem_append_right _ hwmem, ?_⟩
        rw [← Multiset.coe_add, ← Multiset.coe_add]
        cases res with
        | none =>
            simp only [add_zero] at hweq ⊢
            calc (((nodeSlots c : List (Key × Nat)) : Multiset (Key × Nat)) +
                  ((childSlots rest2 : List (Key × Nat)) : Multiset (Key × Nat))) + {(k, w)}
                = ((nodeSlots c : List (Key × Nat)) : Multiset (Key × Nat)) +
                  (((childSlots rest2 : List (Key × Nat)) : Multiset (Key × Nat)) +
                    {(k, w)}) := by abel
              _ = ((nodeSlots c : List (Key × Nat)) : Multiset (Key × Nat)) +
                  (((childSlots rest : List (Key × Nat)) : Multiset (Key × Nat)) +
                    {(k, v)}) := by rw [hweq]
              _ = (((nodeSlots c : List (Key × Nat)) : Multiset (Key × Nat)) +
                  ((childSlots rest : List (Key × Nat)) : Multiset (Key × Nat))) +
                    {(k, v)} := by abel
        | some pr =>
            rcases pr with ⟨nn, pk⟩
            simp only [] at hweq ⊢
            calc (((nodeSlots c : List (Key × Nat)) : Multiset (Key × Nat)) +
                  ((childSlots rest2 : List (Key × Nat)) : Multiset (Key × Nat))) +
                  ((nodeSlots nn : List (Key × Nat)) : Multiset (Key × Nat)) + {(k, w)}
                = ((nodeSlots c : List (Key × Nat)) : Multiset (Key × Nat)) +
                  ((((childSlots rest2 : List (Key × Nat)) : Multiset (Key × Nat)) +
                    ((nodeSlots nn : List (Key × Nat)) : Multiset (Key × Nat))) +
                    {(k, w)}) := by abel
              _ = ((nodeSlots c : List (Key × Nat)) : Multiset (Key × Nat)) +
                  (((childSlots rest : List (Key × Nat)) : Multiset (Key × Nat)) +
                    {(k, v)}) := by rw [hweq]
              _ = (((nodeSlots c : List (Key × Nat)) : Multiset (Key × Nat)) +
                  ((childSlots rest : List (Key × Nat)) : Multiset (Key × Nat))) +
                    {(k, v)} := by abel
      · right
        rw [← Multiset.coe_add, ← Multiset.coe_add]
        cases res with
        | none =>
            simp only [add_zero] at heq ⊢
            rw [heq, ← add_assoc]
        | some pr =>
            rcases pr with ⟨nn, pk⟩
            simp only [] at heq ⊢
            calc (((nodeSlots c : List (Key × Nat)) : Multiset (Key × Nat)) +
                  ((childSlots rest2 : List (Key × Nat)) : Multiset (Key × Nat))) +
                  ((nodeSlots nn : List (Key × Nat)) : Multiset (Key × Nat))
                = ((nodeSlots c : List (Key × Nat)) : Multiset (Key × Nat)) +
                  (((childSlots rest2 : List (Key × Nat)) : Multiset (Key × Nat)) +
                    ((nodeSlots nn : List (Key × Nat)) : Multiset (Key × Nat))) := by abel
              _ = ((nodeSlots c : List (Key × Nat)) : Multiset (Key × Nat)) +
                  (((childSlots rest : List (Key × Nat)) : Multiset (Key × Nat)) +
                    {(k, v)}) := by rw [heq]
              _ = (((nodeSlots c : List (Key × Nat)) : Multiset (Key × Nat)) +
                  ((childSlots rest : List (Key × Nat)) : Multiset (Key × Nat))) +
                    {(k, v)} := by abel
end


mutual
theorem searchNode_mem (k : Key) : ∀ t : BPlusNode, nodeWF t → searchNode k t ≠ 0 →
    (k, searchNode k t) ∈ nodeSlots t
  | .leaf keys values, hwf, hne => by
      simp only [nodeWF] at hwf
      simp only [searchNode, nodeSlots] at hne ⊢
      by_cases hcond : findPosition keys k < keys.length ∧
          keys.getD (findPosition keys k) [] = k
      · rw [if_pos hcond] at hne ⊢
        exact zip_getD_mem keys values _ k hwf hcond.1 hcond.2
      · rw [if_neg hcond] at hne
        exact absurd rfl hne
  | .internal keys children, hwf, hne => by
      simp only [nodeWF] at hwf
      simp only [searchNode, nodeSlots] at hne ⊢
      exact searchChild_mem k children (childIndex keys k) hwf.2.2 hne
theorem searchChild_mem (k : Key) : ∀ (cs : NodeList) (i : Nat), childWF cs →
    searchChild k cs i ≠ 0 → (k, searchChild k cs i) ∈ childSlots cs
  | .nil, i, _, hne => by simp [searchChild] at hne
  | .cons c rest, 0, h, hne => by
      simp only [childWF] at h
      simp only [searchChild, childSlots] at hne ⊢
      exact List.mem_append_left _ (searchNode_mem k c h.1 hne)
  | .cons c rest, n + 1, h, hne => by
      simp only [childWF] at h
      simp only [searchChild, childSlots] at hne ⊢
      exact List.mem_append_right _ (searchChild_mem k rest n h.2 hne)
end

mutual
theorem removeNode_slots (k : Key) : ∀ t : BPlusNode, nodeWF t →
    ((nodeSlots (removeNode k t) : List (Key × Nat)) : Multiset (Key × Nat)) +
        {(k, searchNode k t)} =
      ((nodeSlots t : List (Key × Nat)) : Multiset (Key × Nat)) + {(k, 0)}
  | .leaf keys values, hwf => by
      simp only [nodeWF] at hwf
      simp only [removeNode, searchNode, nodeSlots]
      by_cases hcond : findPosition keys k < keys.length ∧
          keys.getD (findPosition keys k) [] = k
      · rw [if_pos hcond, if_pos hcond]
        simp only [nodeSlots]
        exact zip_set keys values _ k 0 hwf hcond.1 hcond.2
      · rw [if_neg hcond, if_neg hcond]
        simp only [nodeSlots]
  | .internal keys children, hwf => by
      simp only [nodeWF] at hwf
      simp only [removeNode, searchNode, nodeSlots]
      exact removeChild_slots k children (childIndex keys k) hwf.2.2
theorem removeChild_slots (k : Key) : ∀ (cs : NodeList) (i : Nat), childWF cs →
    ((childSlots (removeChild k cs i) : List (Key × Nat)) : Multiset (Key × Nat)) +
        {(k, searchChild k cs i)} =
      ((childSlots cs : List (Key × Nat)) : Multiset (Key × Nat)) + {(k, 0)}
  | .nil, i, _ => by simp [removeChild, searchChild, childSlots]
  | .cons c rest, 0, h => by
      simp only [childWF] at h
      simp only [removeChild, searchChild, childSlots]
      have hrec := removeNode_slots k c h.1
      rw [← Multiset.coe_add, ← Multiset.coe_add]
      calc (((nodeSlots (removeNode k c) : List (Key × Nat)) : Multiset (Key × Nat)) +
            ((childSlots rest : List (Key × Nat)) : Multiset (Key × Nat))) +
            {(k, searchNode k c)}
          = (((nodeSlots (removeNode k c) : List (Key × Nat)) : Multiset (Key × Nat)) +
            {(k, searchNode k c)}) +
            ((childSlots rest : List (Key × Nat)) : Multiset (Key × Nat)) := by abel
        _ = (((nodeSlots c : List (Key × Nat)) : Multiset (Key × Nat)) + {(k, 0)}) +
            ((childSlots rest : List (Key × Nat)) : Multiset (Key × Nat)) := by rw [hrec]
        _ = (((nodeSlots c : List (Key × Nat)) : Multiset (Key × Nat)) +
            ((childSlots rest : List (Key × Nat)) : Multiset (Key × Nat))) + {(k, 0)} := by
              abel
  | .cons c rest, n + 1, h => by
      simp only [childWF] at h
      simp only [removeChild, searchChild, childSlots]
      have hrec := removeChild_slots k rest n h.2
      rw [← Multiset.coe_add, ← Multiset.coe_add]
      calc (((nodeSlots c : List (Key × Nat)) : Multiset (Key × Nat)) +
            ((childSlots (removeChild k rest n) : List (Key × Nat)) : Multiset (Key × Nat))) +
            {(k, searchChild k rest n)}
          = ((nodeSlots c : List (Key × Nat)) : Multiset (Key × Nat)) +
            (((childSlots (removeChild k rest n) : List (Key × Nat)) : Multiset (Key × Nat)) +
            {(k, searchChild k rest n)}) := by abel
        _ = ((nodeSlots c : List (Key × Nat)) : Multiset (Key × Nat)) +
            (((childSlots rest : List (Key × Nat)) : Multiset (Key × Nat)) + {(k, 0)}) := by
              rw [hrec]
        _ = (((nodeSlots c : List (Key × Nat)) : Multiset (Key × Nat)) +
            ((childSlots rest : List (Key × Nat)) : Multiset (Key × Nat))) + {(k, 0)} := by
              abel
end

mutual
theorem searchNode_removeNode (k : Key) : ∀ t : BPlusNode,
    searchNode k (removeNode k t) = 0
  | .leaf keys values => by
      simp only [removeNode]
      by_cases hcond : findPosition keys k < keys.length ∧
          keys.getD (findPosition keys k) [] = k
      · rw [if_pos hcond]
        simp only [searchNode]
        rw [if_pos hcond]
        exact getD_set_zero values _
      · rw [if_neg hcond]
        simp only [searchNode]
        rw [if_neg hcond]
  | .internal keys children => by
      simp only [removeNode, searchNode]
      exact searchChild_removeChild k children (childIndex keys k)
theorem searchChild_removeChild (k : Key) : ∀ (cs : NodeList) (i : Nat),
    searchChild k (removeChild k cs i) i = 0
  | .nil, i => by simp [removeChild, searchChild]
  | .cons c rest, 0 => by
      simp only [removeChild, searchChild]
      exact searchNode_removeNode k c
  | .cons c rest, n + 1 => by
      simp only [removeChild, searchChild]
      exact searchChild_removeChild k rest n
end

mutual
theorem keyInDescentLeaf_of_search (k : Key) : ∀ t : BPlusNode, searchNode k t ≠ 0 →
    keyInDescentLeaf k t = true
  | .leaf keys values, hne => by
      simp only [searchNode] at hne
      simp only [keyInDescentLeaf, decide_eq_true_eq]
      by_cases hcond : findPosition keys k < keys.length ∧
          keys.getD (findPosition keys k) [] = k
      · exact hcond
      · rw [if_neg hcond] at hne
        exact absurd rfl hne
  | .internal keys children, hne => by
      simp only [searchNode] at hne
      simp only [keyInDescentLeaf]
      exact keyInDescentChild_of_search k children (childIndex keys k) hne
theorem keyInDescentChild_of_search (k : Key) : ∀ (cs : NodeList) (i : Nat),
    searchChild k cs i ≠ 0 → keyInDescentChild k cs i = true
  | .nil, i, hne => by simp [searchChild] at hne
  | .cons c rest, 0, hne => by
      simp only [searchChild] at hne
      simp only [keyInDescentChild]
      exact keyInDescentLeaf_of_search k c hne
  | .cons c rest, n + 1, hne => by
      simp only [searchChild] at hne
      simp only [keyInDescentChild]
      exact keyInDescentChild_of_search k rest n hne
end

mutual
theorem keyInDescentLeaf_removeNode (k kr : Key) : ∀ t : BPlusNode,
    keyInDescentLeaf k (removeNode kr t) = keyInDescentLeaf k t
  | .leaf keys values => by
      simp only [removeNode]
      by_cases hcond : findPosition keys kr < keys.length ∧
          keys.getD (findPosition keys kr) [] = kr
      · rw [if_pos hcond]
        simp only [keyInDescentLeaf]
      · rw [if_neg hcond]
  | .internal keys children => by
      simp only [removeNode, keyInDescentLeaf]
      exact keyInDescentChild_removeChild k kr children (childIndex keys k)
        (childIndex keys kr)
theorem keyInDescentChild_removeChild (k kr : Key) : ∀ (cs : NodeList) (i j : Nat),
    keyInDescentChild k (removeChild kr cs j) i = keyInDescentChild k cs i
  | .nil, i, j => by simp [removeChild]
  | .cons c rest, 0, 0 => by
      simp only [removeChild, keyInDescentChild]
      exact keyInDescentLeaf_removeNode k kr c
  | .cons c rest, 0, j + 1 => by
      simp only [removeChild, keyInDescentChild]
  | .cons c rest, i + 1, 0 => by
      simp only [removeChild, keyInDescentChild]
  | .cons c rest, i + 1, j + 1 => by
      simp only [removeChild, keyInDescentChild]
      exact keyInDescentChild_removeChild k kr rest i j
end

mutual
theorem insNode_overwrite (order : Nat) (k : Key) (v : Nat) : ∀ t : BPlusNode, nodeWF t →
    keyInDescentLeaf k t = true →
    (insNode order k v t).2 = none ∧ searchNode k (insNode order k v t).1 = v
  | .leaf keys values, hwf, hkd => by
      simp only [nodeWF] at hwf
      simp only [keyInDescentLeaf, decide_eq_true_eq] at hkd
      simp only [insNode]
      rw [if_pos hkd]
      refine ⟨rfl, ?_⟩
      simp only [searchNode]
      rw [if_pos hkd]
      exact getD_set_lt values _ v 0 (by omega)
  | .internal keys children, hwf, hkd => by
      simp only [nodeWF] at hwf
      simp only [keyInDescentLeaf] at hkd
      simp only [insNode]
      rcases hic : insChild order k v children (childIndex keys k) with ⟨children', res⟩
      have hIH := insChild_overwrite order k v children (childIndex keys k) hwf.2.2 hkd
      rw [hic] at hIH
      simp only [] at hIH
      obtain ⟨hres, hsearch⟩ := hIH
      subst hres
      simp only []
      refine ⟨by trivial, ?_⟩
      simp only [searchNode]
      exact hsearch
theorem insChild_overwrite (order : Nat) (k : Key) (v : Nat) : ∀ (cs : NodeList) (i : Nat),
    childWF cs → keyInDescentChild k cs i = true →
    (insChild order k v cs i).2 = none ∧
    searchChild k (insChild order k v cs i).1 i = v
  | .nil, i, _, hkd => by simp [keyInDescentChild] at hkd
  | .cons c rest, 0, h, hkd => by
      simp only [childWF] at h
      simp only [keyInDescentChild] at hkd
      simp only [insChild]
      rcases hin : insNode order k v c with ⟨c2, res⟩
      have hIH := insNode_overwrite order k v c h.1 hkd
      rw [hin] at hIH
      simp only [] at hIH
      refine ⟨hIH.1, ?_⟩
      simp only [searchChild]
      exact hIH.2
  | .cons c rest, n + 1, h, hkd => by
      simp only [childWF] at h
      simp only [keyInDescentChild] at hkd
      simp only [insChild]
      rcases hic : insChild order k v rest n with ⟨rest2, res⟩
      have hIH := insChild_overwrite order k v rest n h.2 hkd
      rw [hic] at hIH
      simp only [] at hIH
      refine ⟨hIH.1, ?_⟩
      simp only [searchChild]
      exact hIH.2
end

theorem nlLength_removeChild (k : Key) : ∀ (cs : NodeList) (i : Nat),
    nlLength (removeChild k cs i) = nlLength cs
  | .nil, i => by simp [removeChild]
  | .cons c rest, 0 => by simp [removeChild, nlLength]
  | .cons c rest, n + 1 => by
      simp only [removeChild, nlLength]
      rw [nlLength_removeChild k rest n]

mutual
theorem removeNode_wf (k : Key) : ∀ t : BPlusNode, nodeWF t → nodeWF (removeNode k t)
  | .leaf keys values, hwf => by
      simp only [nodeWF] at hwf
      simp only [removeNode]
      by_cases hcond : findPosition keys k < keys.length ∧
          keys.getD (findPosition keys k) [] = k
      · rw [if_pos hcond]
        simp only [nodeWF, List.length_set]
        exact hwf
      · rw [if_neg hcond]
        simp only [nodeWF]
        exact hwf
  | .internal keys children, hwf => by
      simp only [nodeWF] at hwf
      simp only [removeNode, nodeWF]
      refine ⟨hwf.1, ?_, removeChild_wf k children (childIndex keys k) hwf.2.2⟩
      rw [nlLength_removeChild]
      exact hwf.2.1
theorem removeChild_wf (k : Key) : ∀ (cs : NodeList) (i : Nat), childWF cs →
    childWF (removeChild k cs i)
  | .nil, i, h => by simpa [removeChild] using h
  | .cons c rest, 0, h => by
      simp only [childWF] at h
      simp only [removeChild, childWF]
      exact ⟨removeNode_wf k c h.1, h.2⟩
  | .cons c rest, n + 1, h => by
      simp only [childWF] at h
      simp only [removeChild, childWF]
      exact ⟨h.1, removeChild_wf k rest n h.2⟩
end


theorem loadPage_fields (s : EngineState) (pid : Nat) :
    (loadPage s pid).1.index = s.index ∧ (loadPage s pid).1.nextPageId = s.nextPageId ∧
    (loadPage s pid).1.file = s.file ∧ (loadPage s pid).1.journal = s.journal := by
  simp only [loadPage, BufferPool.get]
  cases hf : mapFind s.pool.cache pid <;> simp

theorem engineRemove_proj {s : EngineState} {k : ByteStr}
    (h0 : searchNode k s.index ≠ 0) :
    (engineRemove s k).2.1 = true ∧
    (engineRemove s k).1.index = removeNode k s.index ∧
    (engineRemove s k).1.nextPageId = s.nextPageId := by
  simp only [engineRemove, if_neg h0]
  rcases hl : loadPage { s with journal := logOperation s.journal .DELETE k [] (searchNode k s.index) } (searchNode k s.index) with ⟨s2, pg⟩
  have hf := loadPage_fields { s with journal := logOperation s.journal .DELETE k [] (searchNode k s.index) } (searchNode k s.index)
  rw [hl] at hf
  simp only [] at hf
  simp only [flushPage]
  refine ⟨by trivial, by simp [hf.1], by simp [hf.2.1]⟩

theorem treeInsert_search_overwrite {order : Nat} {t : BPlusNode} {k : Key} {p : Nat}
    (hwf : nodeWF t) (hkd : keyInDescentLeaf k t = true) :
    searchNode k (treeInsert order t k p) = p := by
  obtain ⟨hres, hsearch⟩ := insNode_overwrite order k p t hwf hkd
  simp only [treeInsert]
  rcases hin : insNode order k p t with ⟨t2, res⟩
  rw [hin] at hres hsearch
  simp only [] at hres hsearch
  subst hres
  exact hsearch

theorem mapFind_mapInsert_self (c : List (Nat × CacheEntry)) (pid : Nat) (e : CacheEntry) :
    mapFind (mapInsert c pid e) pid = some e := by
  induction c with
  | nil => simp [mapInsert, mapFind]
  | cons y rest ih =>
      rw [show (y :: rest) = ((y.1, y.2) :: rest) from rfl]
      simp only [mapInsert]
      by_cases hp : y.1 = pid
      · rw [if_pos hp]
        simp [mapFind]
      · rw [if_neg hp]
        simp only [mapFind, if_neg hp]
        exact ih

theorem mapFind_map_setPage (c : List (Nat × CacheEntry)) (pid : Nat) (pg : Page) :
    mapFind (c.map (fun x => if x.1 = pid then (x.1, ⟨pg, x.2.accessTime⟩) else x)) pid =
      Option.map (fun e => (⟨pg, e.accessTime⟩ : CacheEntry)) (mapFind c pid) := by
  induction c with
  | nil => simp [mapFind]
  | cons y rest ih =>
      rcases y with ⟨p0, e0⟩
      by_cases hp : p0 = pid
      · simp only [List.map_cons]
        rw [if_pos (show ((p0, e0).1 = pid) from hp)]
        simp only [mapFind, if_pos hp]
        rfl
      · simp only [List.map_cons]
        rw [if_neg (show ¬((p0, e0).1 = pid) from hp)]
        simp only [mapFind, if_neg hp]
        exact ih

theorem poolSetPage_find {bp : BufferPool} {pid : Nat} {e : CacheEntry}
    (h : mapFind bp.cache pid = some e) (pg : Page) :
    mapFind (poolSetPage bp pid pg).cache pid = some ⟨pg, e.accessTime⟩ := by
  simp only [poolSetPage]
  rw [mapFind_map_setPage, h]
  rfl

theorem put_find (bp : BufferPool) (pid : Nat) (pg : Page) :
    ∃ t, mapFind ((bp.put pid pg).cache) pid = some ⟨pg, t⟩ := by
  simp only [BufferPool.put]
  by_cases hfull : Config.CACHE_SIZE ≤ bp.cache.length
  · rw [if_pos hfull]
    exact ⟨_, mapFind_mapInsert_self _ _ _⟩
  · rw [if_neg hfull]
    exact ⟨_, mapFind_mapInsert_self _ _ _⟩

theorem engineInsert_get {s : EngineState} {k v : ByteStr}
    (h0 : searchNode k s.index = 0)
    (hs : searchNode k (treeInsert Config.BTREE_ORDER s.index k s.nextPageId) = s.nextPageId)
    (hp : 1 ≤ s.nextPageId) (hv : WFValue v) :
    (engineGet (engineInsert s k v).1 k).2 = (true, v) := by
  simp only [engineInsert, h0, ne_eq, not_true_eq_false, if_false, flushPage, Page.make,
    Page.writeRecord]
  simp only [engineGet, hs]
  rw [if_neg (by omega)]
  obtain ⟨t0, hput⟩ := put_find s.pool s.nextPageId
    (⟨s.nextPageId, Record.make k v s.nextPageId, true⟩ : Page)
  have hfind := poolSetPage_find hput (⟨s.nextPageId, Record.make k v s.nextPageId, false⟩ : Page)
  simp only [loadPage, BufferPool.get, hfind]
  simp only [Page.readRecord, Record.make, Record.getValue]
  rw [strncpyStr_of_wf_value hv]
  simp


/-- C6: in every engine state with a well-shaped index and a positive
allocation counter that holds key k (shorter than 256 bytes, per the spec's
data model) with some value — i.e. get returns found — remove(k) returns
true, the index lookup for k afterwards returns the sentinel 0, get(k)
returns (false, empty), a subsequent insert(k, v2) of a well-formed value
returns true, and get(k) then returns (true, v2). -/
theorem delete_occlusion (s : EngineState) (k v2 : ByteStr)
    (_hwfk : WFKey k) (hwfv : WFValue v2) (hwf : nodeWF s.index)
    (hnp : 1 ≤ s.nextPageId) (hget : (engineGet s k).2.1 = true) :
    (engineRemove s k).2.1 = true ∧
    searchNode k (engineRemove s k).1.index = 0 ∧
    (engineGet (engineRemove s k).1 k).2 = (false, []) ∧
    (engineInsert (engineRemove s k).1 k v2).2.1 = true ∧
    (engineGet (engineInsert (engineRemove s k).1 k v2).1 k).2 = (true, v2) := by
  have h0 : searchNode k s.index ≠ 0 := by
    intro h
    rw [engineGet_miss h] at hget
    simp at hget
  obtain ⟨hr1, hridx, hrnp⟩ := engineRemove_proj h0
  have hs1 : searchNode k (engineRemove s k).1.index = 0 := by
    rw [hridx]
    exact searchNode_removeNode k s.index
  have hwf1 : nodeWF (engineRemove s k).1.index := by
    rw [hridx]
    exact removeNode_wf k s.index hwf
  have hkd1 : keyInDescentLeaf k (engineRemove s k).1.index = true := by
    rw [hridx, keyInDescentLeaf_removeNode]
    exact keyInDescentLeaf_of_search k s.index h0
  obtain ⟨hi1, hi2, hi3⟩ := engineInsert_proj (s := (engineRemove s k).1) (v := v2) hs1
  refine ⟨hr1, hs1, ?_, hi3, ?_⟩
  · rw [engineGet_miss hs1]
  · refine engineInsert_get hs1 ?_ ?_ hwfv
    · exact treeInsert_search_overwrite hwf1 hkd1
    · rw [hrnp]
      exact hnp

theorem delete_occlusion_witness :
    (engineRemove ((engineInsert EngineState.init [1] [2]).1) [1]).2.1 = true ∧
    searchNode [1] (engineRemove ((engineInsert EngineState.init [1] [2]).1) [1]).1.index
      = 0 ∧
    (engineGet (engineRemove ((engineInsert EngineState.init [1] [2]).1) [1]).1 [1]).2
      = (false, []) ∧
    (engineInsert (engineRemove ((engineInsert EngineState.init [1] [2]).1) [1]).1
      [1] [7]).2.1 = true ∧
    (engineGet ((engineInsert (engineRemove ((engineInsert EngineState.init [1] [2]).1)
      [1]).1 [1] [7]).1) [1]).2 = (true, [7]) :=
  delete_occlusion ((engineInsert EngineState.init [1] [2]).1) [1] [7]
    (by decide) (by decide) (by decide) (by decide) (by decide)

theorem nzM_coe (l : List (Key × Nat)) : nzM (l : Multiset (Key × Nat)) = nzVals l := rfl

theorem nzM_slotsM (l : List (Key × Nat)) : nzM (slotsM l) = nzVals l := rfl

theorem nzM_add (a b : Multiset (Key × Nat)) : nzM (a + b) = nzM a + nzM b := by
  simp [nzM, Multiset.map_add, Multiset.filter_add]

theorem nzM_single (k : Key) (v : Nat) :
    nzM ({(k, v)} : Multiset (Key × Nat)) = if v = 0 then 0 else {v} := by
  by_cases h : v = 0 <;> simp [nzM, Multiset.filter_singleton, h]

theorem nzM_mem {m : Multiset (Key × Nat)} {q : Nat} (h : q ∈ nzM m) :
    ∃ x ∈ m, x.2 = q ∧ q ≠ 0 := by
  simp only [nzM, Multiset.mem_filter, Multiset.mem_map] at h
  obtain ⟨⟨x, hx, hxq⟩, hq⟩ := h
  exact ⟨x, hx, hxq, hq⟩

theorem treeInsert_slots (order : Nat) (k : Key) (v : Nat) (t : BPlusNode) :
    slotsM (nodeSlots (treeInsert order t k v)) = insResultSlots (insNode order k v t) := by
  simp only [treeInsert]
  rcases h : insNode order k v t with ⟨t2, res⟩
  cases res with
  | none => simp [insResultSlots, slotsM]
  | some pr =>
      rcases pr with ⟨nn, pk⟩
      simp only [insResultSlots, nodeSlots, childSlots, slotsM]
      simp [← Multiset.coe_add]

theorem engineUpdate_miss {s : EngineState} {k v : ByteStr}
    (h : searchNode k s.index = 0) : engineUpdate s k v = (s, false, []) := by
  simp [engineUpdate, h]

theorem engineRemove_miss {s : EngineState} {k : ByteStr}
    (h : searchNode k s.index = 0) : engineRemove s k = (s, false, []) := by
  simp [engineRemove, h]

theorem engineInsert_file {s : EngineState} {k v : ByteStr}
    (h : searchNode k s.index = 0) :
    (engineInsert s k v).1.file =
      fileWrite s.file s.nextPageId (Record.make k v s.nextPageId) := by
  simp [engineInsert, h, flushPage, Page.make, Page.writeRecord]

theorem engineGet_state (s : EngineState) (k : ByteStr) :
    (engineGet s k).1.index = s.index ∧ (engineGet s k).1.file = s.file ∧
    (engineGet s k).1.nextPageId = s.nextPageId := by
  simp only [engineGet]
  by_cases h0 : searchNode k s.index = 0
  · rw [if_pos h0]
    exact ⟨rfl, rfl, rfl⟩
  · rw [if_neg h0]
    rcases hl : loadPage s (searchNode k s.index) with ⟨s1, pg⟩
    have hf := loadPage_fields s (searchNode k s.index)
    rw [hl] at hf
    simp only [] at hf ⊢
    by_cases hd : pg.readRecord.isDeleted = true
    · rw [if_pos hd]
      exact ⟨hf.1, hf.2.2.1, hf.2.1⟩
    · rw [if_neg hd]
      exact ⟨hf.1, hf.2.2.1, hf.2.1⟩

theorem engineGet_hit {s : EngineState} {k : ByteStr} (hpc : PoolCoherent s)
    (h0 : searchNode k s.index ≠ 0)
    (hnd : (fileRead s.file (searchNode k s.index)).isDeleted = false) :
    (engineGet s k).2.1 = true := by
  simp only [engineGet]
  rw [if_neg h0]
  rcases hl : loadPage s (searchNode k s.index) with ⟨s1, pg⟩
  have hspec := loadPage_spec hpc (searchNode k s.index)
  rw [hl] at hspec
  simp only [] at hspec ⊢
  obtain ⟨-, -, -, hrcd, -⟩ := hspec
  simp [Page.readRecord, hrcd, hnd]

theorem engineUpdate_state {s : EngineState} {k v : ByteStr} (hpc : PoolCoherent s)
    (h0 : searchNode k s.index ≠ 0)
    (hnd : (fileRead s.file (searchNode k s.index)).isDeleted = false) :
    (engineUpdate s k v).1.index = s.index ∧
    (engineUpdate s k v).1.nextPageId = s.nextPageId ∧
    (engineUpdate s k v).1.file =
      fileWrite s.file (searchNode k s.index)
        { fileRead s.file (searchNode k s.index) with value := strncpyStr 1023 v } ∧
    (engineUpdate s k v).2.1 = true := by
  simp only [engineUpdate]
  rw [if_neg h0]
  have hpc1 : PoolCoherent { s with journal := logOperation s.journal .UPDATE k v (searchNode k s.index) } := fun x hx => hpc x hx
  rcases hl : loadPage { s with journal := logOperation s.journal .UPDATE k v (searchNode k s.index) } (searchNode k s.index) with ⟨s2, pg⟩
  have hspec := loadPage_spec hpc1 (searchNode k s.index)
  rw [hl] at hspec
  simp only [] at hspec ⊢
  obtain ⟨-, hpid, -, hrcd, hfile, hidx, -, hnpp⟩ := hspec
  have hd : pg.readRecord.isDeleted = false := by
    rw [Page.readRecord, hrcd]
    exact hnd
  rw [if_neg (by simp [hd])]
  simp only [flushPage, Page.writeRecord, Page.readRecord]
  refine ⟨by simp [hidx], by simp [hnpp], ?_, by trivial⟩
  rw [hfile, hpid, hrcd]

theorem engineRemove_state {s : EngineState} {k : ByteStr} (hpc : PoolCoherent s)
    (h0 : searchNode k s.index ≠ 0) :
    (engineRemove s k).1.file =
      fileWrite s.file (searchNode k s.index)
        { fileRead s.file (searchNode k s.index) with isDeleted := true } := by
  simp only [engineRemove]
  rw [if_neg h0]
  have hpc1 : PoolCoherent { s with journal := logOperation s.journal .DELETE k [] (searchNode k s.index) } := fun x hx => hpc x hx
  rcases hl : loadPage { s with journal := logOperation s.journal .DELETE k [] (searchNode k s.index) } (searchNode k s.index) with ⟨s2, pg⟩
  have hspec := loadPage_spec hpc1 (searchNode k s.index)
  rw [hl] at hspec
  simp only [] at hspec ⊢
  obtain ⟨-, hpid, -, hrcd, hfile, -, -, -⟩ := hspec
  simp only [flushPage, Page.writeRecord, Page.readRecord]
  rw [hfile, hpid, hrcd]

theorem engineInit_inv : EngineInv EngineState.init := by
  refine ⟨by decide, by decide, ?_, ?_, by decide⟩
  · intro x hx
    simp [EngineState.init, BufferPool.empty] at hx
  · intro x hx
    simp [EngineState.init, emptyTree, nodeSlots] at hx

theorem applyOp_inv {s : EngineState} (hinv : EngineInv s) :
    ∀ op : EngineOp, WFOp op → EngineInv (applyOp s op) := by
  obtain ⟨hwf, hnp, hpc, hslots, hnodup⟩ := hinv
  intro op hop
  cases op with
  | opGet k =>
      have hpc' := applyOp_coherent hpc (EngineOp.opGet k)
      simp only [applyOp] at hpc' ⊢
      obtain ⟨hi, hf, hn⟩ := engineGet_state s k
      refine ⟨by rw [hi]; exact hwf, by rw [hn]; exact hnp, hpc', ?_, by rw [hi]; exact hnodup⟩
      intro x hx hxnz
      rw [hi] at hx
      rw [hn, hf]
      exact hslots x hx hxnz
  | opFlushAll =>
      have hpc' := applyOp_coherent hpc EngineOp.opFlushAll
      simp only [applyOp] at hpc' ⊢
      simp only [engineFlushAll, getDirtyPages_of_coherent hpc, flushPages] at hpc' ⊢
      exact ⟨hwf, hnp, hpc', fun x hx hxnz => hslots x hx hxnz, hnodup⟩
  | opInsert k v =>
      obtain ⟨hwfk, hwfv⟩ := hop
      have hpc' := applyOp_coherent hpc (EngineOp.opInsert k v)
      simp only [applyOp] at hpc' ⊢
      by_cases h0 : searchNode k s.index = 0
      · obtain ⟨hi, hn, -⟩ := engineInsert_proj (v := v) h0
        have hf := engineInsert_file (v := v) h0
        have hts := treeInsert_slots Config.BTREE_ORDER k s.nextPageId s.index
        have hic := insNode_slots Config.BTREE_ORDER k s.nextPageId s.index hwf
        have hle : slotsM (nodeSlots (treeInsert Config.BTREE_ORDER s.index k s.nextPageId)) ≤
            slotsM (nodeSlots s.index) + {(k, s.nextPageId)} := by
          rcases hic with ⟨w, -, heq⟩ | heq
          · calc slotsM (nodeSlots (treeInsert Config.BTREE_ORDER s.index k s.nextPageId))
                = insResultSlots (insNode Config.BTREE_ORDER k s.nextPageId s.index) := hts
              _ ≤ insResultSlots (insNode Config.BTREE_ORDER k s.nextPageId s.index) + {(k, w)} :=
                Multiset.le_add_right _ _
              _ = slotsM (nodeSlots s.index) + {(k, s.nextPageId)} := heq
          · exact le_of_eq (hts.trans heq)
        have hmem2 : ∀ x ∈ nodeSlots (treeInsert Config.BTREE_ORDER s.index k s.nextPageId),
            x ∈ nodeSlots s.index ∨ x = (k, s.nextPageId) := by
          intro x hx
          have hx2 : x ∈ slotsM (nodeSlots s.index) + {(k, s.nextPageId)} :=
            Multiset.mem_of_le hle (Multiset.mem_coe.mpr hx)
          rcases Multiset.mem_add.mp hx2 with h | h
          · exact Or.inl (Multiset.mem_coe.mp h)
          · exact Or.inr (Multiset.mem_singleton.mp h)
        refine ⟨?_, ?_, hpc', ?_, ?_⟩
        · rw [hi]
          exact treeInsert_wf (by decide) hwf k s.nextPageId
        · rw [hn]
          omega
        · intro x hx hxnz
          rw [hi] at hx
          rw [hn, hf]
          rcases hmem2 x hx with hold | hnew
          · obtain ⟨hlt, hkey, hdel⟩ := hslots x hold hxnz
            refine ⟨by omega, ?_, ?_⟩
            · rw [fileRead_fileWrite, if_neg (by omega)]
              exact hkey
            · rw [fileRead_fileWrite, if_neg (by omega)]
              exact hdel
          · rw [hnew]
            refine ⟨Nat.lt_succ_self _, ?_, ?_⟩
            · rw [fileRead_fileWrite, if_pos rfl]
              exact strncpyStr_of_wf_key hwfk
            · rw [fileRead_fileWrite, if_pos rfl]
              rfl
        · rw [hi]
          have h1 : nzM (slotsM (nodeSlots (treeInsert Config.BTREE_ORDER s.index k
              s.nextPageId))) ≤ nzM (slotsM (nodeSlots s.index) + {(k, s.nextPageId)}) :=
            Multiset.filter_le_filter _ (Multiset.map_le_map hle)
          rw [nzM_add, nzM_single, if_neg (by omega), nzM_slotsM, nzM_slotsM] at h1
          have hpnot : s.nextPageId ∉ nzVals (nodeSlots s.index) := by
            intro hmem'
            rw [← nzM_slotsM] at hmem'
            obtain ⟨x, hx, hx2, -⟩ := nzM_mem hmem'
            obtain ⟨hlt, -, -⟩ := hslots x (Multiset.mem_coe.mp hx) (by omega)
            omega
          have hnodup2 : Multiset.Nodup (nzVals (nodeSlots s.index) + {s.nextPageId}) := by
            rw [add_comm, Multiset.singleton_add]
            exact Multiset.nodup_cons.mpr ⟨hpnot, hnodup⟩
          exact Multiset.nodup_of_le h1 hnodup2
      · rw [show (engineInsert s k v).1 = s from by rw [engineInsert_dup h0]]
        exact ⟨hwf, hnp, hpc, hslots, hnodup⟩
  | opUpdate k v =>
      have hpc' := applyOp_coherent hpc (EngineOp.opUpdate k v)
      simp only [applyOp] at hpc' ⊢
      by_cases h0 : searchNode k s.index = 0
      · rw [show (engineUpdate s k v).1 = s from by rw [engineUpdate_miss h0]]
        exact ⟨hwf, hnp, hpc, hslots, hnodup⟩
      · have hmem0 : (k, searchNode k s.index) ∈ nodeSlots s.index :=
          searchNode_mem k s.index hwf h0
        obtain ⟨hlt0, hkey0, hdel0⟩ := hslots _ hmem0 h0
        obtain ⟨hi, hn, hf, -⟩ := engineUpdate_state (v := v) hpc h0 hdel0
        refine ⟨by rw [hi]; exact hwf, by rw [hn]; exact hnp, hpc', ?_,
          by rw [hi]; exact hnodup⟩
        intro x hx hxnz
        rw [hi] at hx
        rw [hn, hf]
        obtain ⟨hlt, hkey, hdel⟩ := hslots x hx hxnz
        by_cases hxp : searchNode k s.index = x.2
        · rw [fileRead_fileWrite, if_pos hxp]
          rw [← hxp] at hkey hdel
          exact ⟨hlt, hkey, hdel⟩
        · rw [fileRead_fileWrite, if_neg hxp]
          exact ⟨hlt, hkey, hdel⟩
  | opRemove k =>
      have hpc' := applyOp_coherent hpc (EngineOp.opRemove k)
      simp only [applyOp] at hpc' ⊢
      by_cases h0 : searchNode k s.index = 0
      · rw [show (engineRemove s k).1 = s from by rw [engineRemove_miss h0]]
        exact ⟨hwf, hnp, hpc, hslots, hnodup⟩
      · have hmem0 : (k, searchNode k s.index) ∈ nodeSlots s.index :=
          searchNode_mem k s.index hwf h0
        obtain ⟨hlt0, hkey0, hdel0⟩ := hslots _ hmem0 h0
        obtain ⟨-, hi, hn⟩ := engineRemove_proj h0
        have hfile := engineRemove_state hpc h0
        have hrs := removeNode_slots k s.index hwf
        have hcnt1 : Multiset.count (k, searchNode k s.index)
            ((nodeSlots s.index : List (Key × Nat)) : Multiset (Key × Nat)) ≤ 1 := by
          have hchain : Multiset.count (k, searchNode k s.index)
              ((nodeSlots s.index : List (Key × Nat)) : Multiset (Key × Nat)) ≤
              Multiset.count (searchNode k s.index) (Multiset.map Prod.snd
                ((nodeSlots s.index : List (Key × Nat)) : Multiset (Key × Nat))) := by
            rw [Multiset.count_eq_card_filter_eq, Multiset.count_map]
            refine Multiset.card_le_card (Multiset.monotone_filter_right _ ?_)
            intro b hb
            rw [← hb]
          have hnodup2 : Multiset.Nodup (Multiset.filter (fun v => v ≠ 0)
              (Multiset.map Prod.snd
                ((nodeSlots s.index : List (Key × Nat)) : Multiset (Key × Nat)))) := by
            have h2 : Multiset.Nodup
                (nzM ((nodeSlots s.index : List (Key × Nat)) : Multiset (Key × Nat))) := by
              rw [nzM_coe]
              exact hnodup
            exact h2
          have hone := Multiset.nodup_iff_count_le_one.mp hnodup2 (searchNode k s.index)
          have hfil := Multiset.count_filter_of_pos (p := fun v => v ≠ 0)
            (s := Multiset.map Prod.snd
              ((nodeSlots s.index : List (Key × Nat)) : Multiset (Key × Nat))) h0
          omega
        refine ⟨by rw [hi]; exact removeNode_wf k s.index hwf, by rw [hn]; exact hnp,
          hpc', ?_, ?_⟩
        · intro x hx hxnz
          rw [hi] at hx
          rw [hn, hfile]
          have hxmem : x ∈ ((nodeSlots s.index : List (Key × Nat)) : Multiset (Key × Nat)) +
              {(k, (0 : Nat))} := by
            rw [← hrs]
            exact Multiset.mem_add.mpr (Or.inl (Multiset.mem_coe.mpr hx))
          have hxold : x ∈ nodeSlots s.index := by
            rcases Multiset.mem_add.mp hxmem with h | h
            · exact Multiset.mem_coe.mp h
            · exact absurd (congrArg Prod.snd (Multiset.mem_singleton.mp h)) hxnz
          obtain ⟨hlt, hkey, hdel⟩ := hslots x hxold hxnz
          by_cases hxp : x.2 = searchNode k s.index
          · exfalso
            have hxeq : x = (k, searchNode k s.index) := by
              refine Prod.ext ?_ hxp
              rw [← hkey, hxp, hkey0]
            have hcnt' := congrArg (Multiset.count (k, searchNode k s.index)) hrs
            simp only [Multiset.count_add, Multiset.count_singleton_self] at hcnt'
            have hz : Multiset.count (k, searchNode k s.index)
                ({(k, (0 : Nat))} : Multiset (Key × Nat)) = 0 := by
              rw [Multiset.count_singleton, if_neg]
              intro he
              exact h0 (congrArg Prod.snd he)
            rw [hz] at hcnt'
            have hx' : x ∈ ((nodeSlots (removeNode k s.index) : List (Key × Nat)) :
                Multiset (Key × Nat)) := Multiset.mem_coe.mpr hx
            rw [hxeq] at hx'
            have hposc := Multiset.count_pos.mpr hx'
            omega
          · rw [fileRead_fileWrite, if_neg (fun he => hxp he.symm)]
            exact ⟨hlt, hkey, hdel⟩
        · rw [hi]
          have hnzeq := congrArg nzM hrs
          rw [nzM_add, nzM_add, nzM_single, nzM_single, if_neg h0, if_pos rfl,
            nzM_coe, nzM_coe] at hnzeq
          have hle2 : nzVals (nodeSlots (removeNode k s.index)) ≤
              nzVals (nodeSlots s.index) := by
            calc nzVals (nodeSlots (removeNode k s.index))
                ≤ nzVals (nodeSlots (removeNode k s.index)) + {searchNode k s.index} :=
                  Multiset.le_add_right _ _
              _ = nzVals (nodeSlots s.index) + 0 := hnzeq
              _ = nzVals (nodeSlots s.index) := add_zero _
          exact Multiset.nodup_of_le hle2 hnodup

theorem runOps_inv (ops : List EngineOp) (hops : ∀ op ∈ ops, WFOp op) :
    EngineInv (runOps ops) := by
  suffices h : ∀ (l : List EngineOp) (s : EngineState), EngineInv s →
      (∀ op ∈ l, WFOp op) → EngineInv (l.foldl applyOp s) from
    h ops EngineState.init engineInit_inv hops
  intro l
  induction l with
  | nil => exact fun s hs _ => hs
  | cons op rest ih =>
      intro s hs hl
      exact ih (applyOp s op) (applyOp_inv hs op (hl op (by simp)))
        (fun o ho => hl o (by simp [ho]))

/-- C10: index–file coherence.  In every engine state reachable from a
fresh engine by public calls whose keys are shorter than 256 bytes and
values shorter than 1024 bytes (the spec's data model), whenever the index
lookup for a key k returns a nonzero page id p, the record stored at page p
of the data file carries key k and has is_deleted = false; consequently the
tombstone failure branches after a nonzero index hit are unreachable: get(k)
returns found and update(k, v) returns true for every value v. -/
theorem index_file_coherence :
    ∀ ops : List EngineOp, (∀ op ∈ ops, WFOp op) →
      ∀ k : ByteStr, searchNode k (runOps ops).index ≠ 0 →
        (fileRead (runOps ops).file (searchNode k (runOps ops).index)).key = k ∧
        (fileRead (runOps ops).file (searchNode k (runOps ops).index)).isDeleted = false ∧
        (engineGet (runOps ops) k).2.1 = true ∧
        ∀ v : ByteStr, (engineUpdate (runOps ops) k v).2.1 = true := by
  intro ops hops k hk
  obtain ⟨hwf, hnp, hpc, hslots, hnodup⟩ := runOps_inv ops hops
  have hmem := searchNode_mem k (runOps ops).index hwf hk
  obtain ⟨hlt, hkey, hdel⟩ := hslots _ hmem hk
  exact ⟨hkey, hdel, engineGet_hit hpc hk hdel,
    fun v => (engineUpdate_state (v := v) hpc hk hdel).2.2.2⟩

theorem index_file_coherence_witness :
    (fileRead (runOps [EngineOp.opInsert [1] [2]]).file
        (searchNode [1] (runOps [EngineOp.opInsert [1] [2]]).index)).key = [1] ∧
    (fileRead (runOps [EngineOp.opInsert [1] [2]]).file
        (searchNode [1] (runOps [EngineOp.opInsert [1] [2]]).index)).isDeleted = false ∧
    (engineGet (runOps [EngineOp.opInsert [1] [2]]) [1]).2.1 = true ∧
    (engineUpdate (runOps [EngineOp.opInsert [1] [2]]) [1] [5]).2.1 = true := by
  obtain ⟨h1, h2, h3, h4⟩ :=
    index_file_coherence [EngineOp.opInsert [1] [2]] (by decide) [1] (by decide)
  exact ⟨h1, h2, h3, h4 [5]⟩

end DbEngine
